import Mathlib

/-!
Verification development for the influxdb-client wire-protocol codec.

Two components are embedded from the Go sources:

* the chunked-JSON query-result cursor (`json_cursor.go`): `jsonCursor.NextSet`,
  `jsonResult.NextSeries`, `jsonSeries.NextRow`, `jsonSeries.Len`;
* the line-protocol point encoder (`protocol.go`): `lineProtocolV1.Encode`,
  `formatValue` and the escaping tables.

The cursor is modelled as a deterministic state machine.  Go mutates the
cursor, the active result and the active series in place through shared
pointers; here that shared state is threaded explicitly, which is faithful
under the library's single-consumer discipline (exactly one active result and
one active series at a time).  Row cell values are never inspected by the
cursor, so the model is parametric in the cell type `V`.
-/

/-! ## Chunked JSON result cursor (json_cursor.go) -/

/-- Errors surfaced by the cursor: `eof` models `io.EOF` (clean end of
stream), `unexpectedEOF` models `io.ErrUnexpectedEOF`, `resultErr`
models `ErrResult` (errors.go) carrying the server message, and
`seriesTruncated` models `ErrSeriesTruncated`. -/
inductive CErr where
  | eof
  | unexpectedEOF
  | resultErr (msg : String)
  | seriesTruncated
deriving DecidableEq, Repr

/-- One decoded series entry: the anonymous struct inside `jsonResult.Series`
(fields `name`, `tags`, `columns`, `values`, `partial`).  The Go field
`Partial` is called `partFlag` here (`partial` is a Lean keyword). -/
structure JsonSeriesData (V : Type) where
  name : String
  tags : List (String × String)
  columns : List String
  values : List (List V)
  partFlag : Bool
deriving DecidableEq, Repr

/-- One decoded `jsonResult` as produced by `json.Decoder.Decode`: the JSON
fields `series`, `messages`, `partial`, `error`.  The runtime navigation
fields of the Go struct (`index`, `columns`, `cur`, `series`) live in
`RState` below. -/
structure JsonResult (V : Type) where
  series : List (JsonSeriesData V)
  messageList : List String := []
  partFlag : Bool
  err : String
deriving DecidableEq, Repr

/-- The byte stream plus the cursor's decode buffer: `docs` is the list of
JSON documents not yet consumed by `dec.Decode` (each document carrying its
`results` array), `buf` is `jsonCursor.buf.Results` (decoded results not yet
dequeued).  A `Decode` call overwrites `buf` with the next document's
results array. -/
structure World (V : Type) where
  docs : List (List (JsonResult V))
  buf : List (JsonResult V)
deriving DecidableEq, Repr

/-- The runtime state of the active `jsonResult` handle: the decoded fields
that navigation overwrites (`Series`, `Partial`, `Err`) plus the runtime
fields `index` and `columns`.  `attached` models `r.cur != nil` (the
back-pointer to the cursor that permits fetching continuation documents). -/
structure RState (V : Type) where
  series : List (JsonSeriesData V)
  partFlag : Bool
  err : String
  index : Nat
  columns : List String
  attached : Bool
deriving DecidableEq, Repr

/-- The runtime state of the active `jsonSeries` handle (fields `name`,
`tags`, `sz`, `values`, `partial`, `invalid`). -/
structure SState (V : Type) where
  name : String
  tags : List (String × String)
  sz : Nat
  values : List (List V)
  partFlag : Bool
  invalid : Bool
deriving DecidableEq, Repr

variable {V : Type}

/-- Insertion of one tag into a key-sorted tag list, used to model
`sort.Sort(tags)` with `Tags.Less` comparing keys. -/
def insertTagSorted (t : String × String) : List (String × String) → List (String × String)
  | [] => [t]
  | u :: us => if t.1 < u.1 then t :: u :: us else u :: insertTagSorted t us

/-- `jsonResult.NextSeries` collects the tag map into a list and sorts it by
key (`sort.Sort` with key comparison; the order of equal keys is not
observable since JSON object keys are unique). -/
def sortTags (ts : List (String × String)) : List (String × String) :=
  ts.foldr insertTagSorted []

/-- The `for len(buf.Results) == 0 \x7b dec.Decode(&buf) \x7d` fill loop:
decode documents until the buffer is non-empty.  Returns the buffer head, the
rest of the buffer and the remaining documents; `none` models the decoder
returning `io.EOF` (stream exhausted while the buffer is still empty). -/
def fillWorld : List (JsonResult V) → List (List (JsonResult V)) →
    Option (JsonResult V × List (JsonResult V) × List (List (JsonResult V)))
  | r :: bs, ds => some (r, bs, ds)
  | [], [] => none
  | [], d :: ds => fillWorld d ds

/-- Number of decoded results in the remaining documents. -/
def docResults (docs : List (List (JsonResult V))) : Nat :=
  (docs.map List.length).sum

/-- Results remaining in the buffer and the undecoded stream (termination
measure for the drain/fetch loops). -/
def totalResults (w : World V) : Nat :=
  w.buf.length + docResults w.docs

theorem fillWorld_size {buf : List (JsonResult V)} {docs res rest ds}
    (h : fillWorld buf docs = some (res, rest, ds)) :
    rest.length + docResults ds < buf.length + docResults docs := by
  induction docs generalizing buf with
  | nil =>
    cases buf with
    | nil => simp [fillWorld] at h
    | cons r bs =>
      simp only [fillWorld, Option.some.injEq, Prod.mk.injEq] at h
      obtain ⟨-, rfl, rfl⟩ := h
      simp only [List.length_cons]
      omega
  | cons d ds' ih =>
    cases buf with
    | nil =>
      have := ih (show fillWorld d ds' = some (res, rest, ds) from h)
      simp [docResults] at this ⊢
      omega
    | cons r bs =>
      simp only [fillWorld, Option.some.injEq, Prod.mk.injEq] at h
      obtain ⟨-, rfl, rfl⟩ := h
      simp only [List.length_cons]
      omega

/-- Outcome of one fetch of the next decoded result (used by `NextSeries`).
`fail` carries the state at the point of failure. -/
inductive FetchRes (V : Type) where
  | ok (res : JsonResult V) (w : World V)
  | fail (e : CErr) (w : World V)
deriving DecidableEq, Repr

/-- The fetch step shared by both loops of `jsonResult.NextSeries`
(json_cursor.go lines 183-199 and 235-251): fill the buffer with the decode
loop (an `io.EOF` there becomes `io.ErrUnexpectedEOF`), peek the head result,
surface `ErrResult` without popping it, otherwise pop it. -/
def fetchNext (w : World V) : FetchRes V :=
  match fillWorld w.buf w.docs with
  | none => .fail .unexpectedEOF ⟨[], []⟩
  | some (res, rest, ds) =>
    if res.err ≠ "" then .fail (.resultErr res.err) ⟨ds, res :: rest⟩
    else .ok res ⟨ds, rest⟩

theorem fetchNext_ok_size {w : World V} {res w'}
    (h : fetchNext w = .ok res w') : totalResults w' < totalResults w := by
  unfold fetchNext at h
  cases hf : fillWorld w.buf w.docs with
  | none => rw [hf] at h; exact absurd h (by simp)
  | some t =>
    obtain ⟨r2, rest, ds⟩ := t
    rw [hf] at h
    by_cases he : r2.err ≠ "" <;> simp [he] at h
    obtain ⟨rfl, rfl⟩ := h
    simpa [totalResults] using fillWorld_size hf

/-- A freshly decoded `jsonResult` viewed as a result handle: runtime fields
at their Go zero values (`index = 0`, `columns = nil`, `cur = nil`). -/
def toRState (res : JsonResult V) : RState V :=
  { series := res.series, partFlag := res.partFlag, err := res.err,
    index := 0, columns := [], attached := false }

/-- Outcome of the drain loop of `jsonCursor.NextSet`. -/
inductive DrainRes (V : Type) where
  | done (w : World V)
  | failEOF (w : World V) (cur : RState V)
deriving DecidableEq, Repr

/-- The drain loop of `jsonCursor.NextSet` (json_cursor.go lines 36-49):
while the current result is partial, fill the buffer (decode `io.EOF`
becoming `io.ErrUnexpectedEOF`) and move `c.cur` to the dequeued head. -/
def drainResults (r : RState V) (w : World V) : DrainRes V :=
  if r.partFlag then
    match h : fillWorld w.buf w.docs with
    | none => .failEOF ⟨[], []⟩ r
    | some (res, rest, ds) => drainResults (toRState res) ⟨ds, rest⟩
  else .done w
termination_by totalResults w
decreasing_by
  simpa [totalResults] using fillWorld_size h

/-- Outcome of `jsonCursor.NextSet`: on success the returned `ResultSet` is
the handle `r` (which is also the new `c.cur`); on failure no `ResultSet` is
returned and `cur` records where `c.cur` is left pointing. -/
inductive NextSetRes (V : Type) where
  | ok (w : World V) (r : RState V)
  | fail (e : CErr) (w : World V) (cur : Option (RState V))
deriving DecidableEq, Repr

/-- `jsonCursor.NextSet` after the drain phase (json_cursor.go lines 55-80):
fill the buffer (a decode error here is returned raw, so end of stream is the
clean `io.EOF`), set `c.cur` to the buffer head, surface `ErrResult` without
popping it, otherwise pop it, attach the cursor back-pointer when the result
is partial, and capture the columns from the first series entry. -/
def nextSetFresh (w : World V) : NextSetRes V :=
  match fillWorld w.buf w.docs with
  | none => .fail .eof ⟨[], []⟩ none
  | some (res, rest, ds) =>
    if res.err ≠ "" then .fail (.resultErr res.err) ⟨ds, res :: rest⟩ (some (toRState res))
    else
      .ok ⟨ds, rest⟩
        { toRState res with
            attached := res.partFlag,
            columns := match res.series with | [] => [] | s0 :: _ => s0.columns }

/-- `jsonCursor.NextSet` (json_cursor.go lines 27-81).  `cur` is `c.cur`; a
previous handle is detached (`c.cur.cur = nil`) and drained when partial. -/
def nextSet : World V → Option (RState V) → NextSetRes V
  | w, none => nextSetFresh w
  | w, some r =>
    match drainResults r w with
    | .failEOF w' c => .fail .unexpectedEOF w' (some c)
    | .done w' => nextSetFresh w'

/-- Outcome of `jsonResult.NextSeries`: `ok` carries the new series handle
and the updated result/world; `fail` carries the state at failure. -/
inductive NSRes (V : Type) where
  | ok (w : World V) (r : RState V) (s : SState V)
  | fail (e : CErr) (w : World V) (r : RState V)
deriving DecidableEq, Repr

/-- Outcome of the skip loop of `jsonResult.NextSeries`. -/
inductive SkipRes (V : Type) where
  | ok (w : World V) (r : RState V)
  | fail (e : CErr) (w : World V) (r : RState V)
deriving DecidableEq, Repr

/-- The skip loop of `jsonResult.NextSeries` (json_cursor.go lines 170-213),
run when the previously returned series was partial: advance `r.index`
past every directly following series entry that is also marked partial
(fetching continuation results while the result is partial), then skip the
first non-partial entry as well. -/
def nextSeriesSkip (w : World V) (r : RState V) : SkipRes V :=
  if hidx : r.index < r.series.length then
    if (r.series[r.index]).partFlag then
      nextSeriesSkip w { r with index := r.index + 1 }
    else .ok w { r with index := r.index + 1 }
  else if r.partFlag = false then .fail .seriesTruncated w r
  else if r.attached = false then .fail .unexpectedEOF w r
  else
    match h : fetchNext w with
    | .fail e w' => .fail e w' r
    | .ok res w' =>
      nextSeriesSkip w' { r with series := res.series, partFlag := res.partFlag, index := 0 }
termination_by (totalResults w, r.series.length - r.index)
decreasing_by
  · apply Prod.Lex.right
    omega
  · apply Prod.Lex.left
    exact fetchNext_ok_size h

/-- The main loop and series construction of `jsonResult.NextSeries`
(json_cursor.go lines 225-279): fetch continuation results while the index
is past the in-memory series array (clean `io.EOF` when the result is not
partial, `io.ErrUnexpectedEOF` when detached), then hand out the series at
the index, with tags collected and sorted by key. -/
def nextSeriesMain (w : World V) (r : RState V) : NSRes V :=
  if hidx : r.index < r.series.length then
    .ok w { r with index := r.index + 1 }
      { name := (r.series[r.index]).name,
        tags := sortTags (r.series[r.index]).tags,
        sz := (r.series[r.index]).values.length,
        values := (r.series[r.index]).values,
        partFlag := (r.series[r.index]).partFlag,
        invalid := false }
  else if r.partFlag = false then .fail .eof w r
  else if r.attached = false then .fail .unexpectedEOF w r
  else
    match h : fetchNext w with
    | .fail e w' => .fail e w' r
    | .ok res w' =>
      nextSeriesMain w' { r with series := res.series, partFlag := res.partFlag, index := 0 }
termination_by totalResults w
decreasing_by
  exact fetchNext_ok_size h

/-- `jsonResult.NextSeries` (json_cursor.go lines 159-280).  `sPrev` is the
previously returned series handle `r.series` (if any); when it was partial
the skip loop runs first.  The old handle is marked invalid and dropped
(this linear model simply discards it). -/
def nextSeries (w : World V) (r : RState V) (sPrev : Option (SState V)) : NSRes V :=
  match sPrev with
  | none => nextSeriesMain w r
  | some s =>
    if s.partFlag then
      match nextSeriesSkip w r with
      | .fail e w' r' => .fail e w' r'
      | .ok w' r' => nextSeriesMain w' r'
    else nextSeriesMain w r

/-- Outcome of `jsonSeries.NextRow`: a row (its values array), an error, or a
Go runtime panic.  `panicked` models the out-of-range index
`s.r.cur.buf.Results[0]` taken on an empty decoded `results` array. -/
inductive NRRes (V : Type) where
  | row (vals : List V) (w : World V) (r : RState V) (s : SState V)
  | fail (e : CErr) (w : World V) (r : RState V) (s : SState V)
  | panicked
deriving DecidableEq, Repr

/-- `jsonSeries.NextRow` (json_cursor.go lines 309-359).  The Go outer loop
runs while the row buffer is empty and the inner loop while the series index
is past the in-memory series array; both are expressed as one recursion
(the series state is not touched between inner-loop iterations, so
re-checking its flags at the top is equivalent).  Unlike `NextSet` and
`NextSeries`, the fetch here calls `dec.Decode` exactly once and
unconditionally (line 328), overwriting `buf` with the next document's
results array, and then indexes `buf.Results[0]` (line 338). -/
def nextRow (w : World V) (r : RState V) (s : SState V) : NRRes V :=
  match hv : s.values with
  | v :: vs => .row v w r { s with values := vs }
  | [] =>
    if s.partFlag = false then .fail .eof w r s
    else if s.invalid then .fail .unexpectedEOF w r s
    else if hidx : r.index < r.series.length then
      nextRow w { r with index := r.index + 1 }
        { s with values := (r.series[r.index]).values,
                 sz := s.sz + (r.series[r.index]).values.length,
                 partFlag := (r.series[r.index]).partFlag }
    else if r.partFlag = false then .fail .seriesTruncated w r s
    else if r.attached = false then .fail .unexpectedEOF w r s
    else
      match hd : w.docs with
      | [] => .fail .unexpectedEOF w r s
      | d :: ds =>
        match hb : d with
        | [] => .panicked
        | res :: rest =>
          if res.err ≠ "" then .fail (.resultErr res.err) ⟨ds, res :: rest⟩ r s
          else
            nextRow ⟨ds, rest⟩
              { r with series := res.series, partFlag := res.partFlag, index := 0 } s
termination_by (w.docs.length, r.series.length - r.index)
decreasing_by
  · apply Prod.Lex.right
    omega
  · apply Prod.Lex.left
    simp [hd]

/-- `jsonSeries.Len` (json_cursor.go lines 305-307): the cumulative size and
whether the series is complete (not partial). -/
def SState.len (s : SState V) : Nat × Bool :=
  (s.sz, !s.partFlag)

/-- Terminal outcome of repeatedly calling `NextRow`. -/
inductive CollectTerm (V : Type) where
  | fuelOut (w : World V) (r : RState V) (s : SState V)
  | fail (e : CErr) (w : World V) (r : RState V) (s : SState V)
  | panicked
deriving DecidableEq, Repr

/-- Call `NextRow` up to `fuel` times, collecting the yielded rows in order
together with the terminal outcome. -/
def collectRows : Nat → World V → RState V → SState V → List (List V) × CollectTerm V
  | 0, w, r, s => ([], .fuelOut w r s)
  | n + 1, w, r, s =>
    match nextRow w r s with
    | .row v w' r' s' =>
      let p := collectRows n w' r' s'
      (v :: p.1, p.2)
    | .fail e w' r' s' => ([], .fail e w' r' s')
    | .panicked => ([], .panicked)

/-- A continuation document as described by the spec's chunking scenario: a
single result whose `results` array holds one result carrying exactly one
series entry (the continuation chunk), with the given result-level partial
flag. -/
def contDoc (sd : JsonSeriesData V) (resPart : Bool) : List (JsonResult V) :=
  [{ series := [sd], messageList := [], partFlag := resPart, err := "" }]

/-- The stream of continuation documents for a chain of chunks. -/
def chainDocs (l : List (JsonSeriesData V × Bool)) : List (List (JsonResult V)) :=
  l.map fun p => contDoc p.1 p.2

/-- A well-formed continuation chain: every chunk but the last is marked
partial and sits in a result marked partial; the final chunk is not
partial. -/
def goodChain : List (JsonSeriesData V × Bool) → Bool
  | [] => false
  | [(sd, _)] => !sd.partFlag
  | (sd, q) :: rest => sd.partFlag && q && goodChain rest

/-- The rows carried by a continuation chain, in order. -/
def chainRows (l : List (JsonSeriesData V × Bool)) : List (List V) :=
  (l.map fun p => p.1.values).flatten

/-! ## Line protocol encoder (protocol.go)

The `io.Writer` is modelled as the sequence of characters written so far;
`Encode` returns that sequence together with the error, if any, so that
claims about partially written output can be stated. -/

/-- `Precision` (precision.go) is a string type. -/
abbrev Precision := String

def PrecisionNanosecond : Precision := "ns"

def PrecisionMicrosecond : Precision := "u"

def PrecisionMillisecond : Precision := "ms"

def PrecisionSecond : Precision := "s"

def PrecisionMinute : Precision := "m"

def PrecisionHour : Precision := "h"

/-- `Tag` (point.go): a key/value pair of strings. -/
structure Tag where
  key : String
  value : String
deriving DecidableEq, Repr

/-- A field value as stored in the Go `Fields` map.  `vInt` covers the Go
`int64`, `int32` and `int` cases of `formatValue`, which render identically
by decimal value; `vStr` covers `string`, `vBool` covers `bool`;
`vUnsupported` covers every dynamic type hitting the `default` branch of the
type switch, carrying the `%T` type name used in its error message.  The
`float64`/`float32` branches are IEEE-754 formatting
(`strconv.FormatFloat(v, 103, 6, 64)`) and are outside this integer
embedding. -/
inductive FieldValue where
  | vInt (n : Int)
  | vStr (s : String)
  | vBool (b : Bool)
  | vUnsupported (tname : String)
deriving DecidableEq, Repr

/-- `Point` (point.go) as consumed by `lineProtocolV1.Encode`.  `Fields` is a
Go map; it is modelled as an association list in the map's iteration order.
`Time` is a `time.Time` used only through `IsZero` and `UnixNano`, embedded
as `Option Int` (`none` for the zero time, `some t` for a time with
`UnixNano = t`). -/
structure Point where
  name : String
  tags : List Tag
  fields : List (String × FieldValue)
  time : Option Int
deriving DecidableEq, Repr

/-- `EncodeOptions` (protocol.go lines 187-189). -/
structure EncodeOptions where
  precision : Precision := ""
deriving DecidableEq, Repr

/-- The errors of the encoder: `ErrNoFields` (errors.go line 16) and the
`invalid field type` error of `formatValue`. -/
inductive EncErr where
  | noFields
  | invalidFieldType (tname : String)
deriving DecidableEq, Repr

/-- `escapeSequence` (protocol.go lines 260-263).  All patterns used by the
escape tables are single characters, so the pattern is a `Char`. -/
structure EscapeSeq where
  s : Char
  esc : List Char

/-- `strings.Replace(in, c.s, c.esc, -1)` for a single-character pattern:
every occurrence of the pattern character is replaced by the replacement
sequence; the output is not rescanned. -/
def replaceChar (pat : Char) (rep : List Char) : List Char → List Char
  | [] => []
  | c :: cs => (if c = pat then rep else [c]) ++ replaceChar pat rep cs

/-- `escape` (protocol.go lines 299-304): apply the escape sequences in
order. -/
def escape (inp : List Char) (codes : List EscapeSeq) : List Char :=
  codes.foldl (fun acc c => replaceChar c.s c.esc acc) inp

/-- `measurementEscapeCodes` (protocol.go lines 266-269). -/
def measurementEscapeCodes : List EscapeSeq :=
  [⟨',', ['\\', ',']⟩, ⟨' ', ['\\', ' ']⟩]

/-- `tagEscapeCodes` (protocol.go lines 271-275). -/
def tagEscapeCodes : List EscapeSeq :=
  [⟨',', ['\\', ',']⟩, ⟨' ', ['\\', ' ']⟩, ⟨'=', ['\\', '=']⟩]

/-- `stringEscapeCodes` (protocol.go lines 277-280). -/
def stringEscapeCodes : List EscapeSeq :=
  [⟨'\\', ['\\', '\\']⟩, ⟨'"', ['\\', '"']⟩]

/-- `escapeMeasurement` (protocol.go lines 284-286). -/
def escapeMeasurement (inp : List Char) : List Char :=
  escape inp measurementEscapeCodes

/-- `escapeTag` (protocol.go lines 289-291). -/
def escapeTag (inp : List Char) : List Char :=
  escape inp tagEscapeCodes

/-- `escapeString` (protocol.go lines 294-296). -/
def escapeString (inp : List Char) : List Char :=
  escape inp stringEscapeCodes

/-- Decimal digit character. -/
def digitChar : Nat → Char
  | 0 => '0'
  | 1 => '1'
  | 2 => '2'
  | 3 => '3'
  | 4 => '4'
  | 5 => '5'
  | 6 => '6'
  | 7 => '7'
  | 8 => '8'
  | _ => '9'

/-- Decimal digit accumulation with an explicit recursion bound; any bound
of at least `n` yields the digits of `n`, most significant first
(`natDigitsF_congr`). -/
def natDigitsF : Nat → Nat → List Char
  | 0, n => [digitChar n]
  | fuel + 1, n =>
    if n < 10 then [digitChar n]
    else natDigitsF fuel (n / 10) ++ [digitChar (n % 10)]

/-- Decimal digits of a natural number, most significant first (the digit
string of `strconv.FormatInt(v, 10)`). -/
def natDigits (n : Nat) : List Char :=
  natDigitsF n n

theorem natDigitsF_congr : ∀ (n f1 f2 : Nat), n ≤ f1 → n ≤ f2 →
    natDigitsF f1 n = natDigitsF f2 n := by
  intro n
  induction n using Nat.strong_induction_on with
  | _ n ih =>
    intro f1 f2 h1 h2
    by_cases hn : n < 10
    · cases f1 with
      | zero => cases f2 with
        | zero => rfl
        | succ f2 => rw [natDigitsF, natDigitsF, if_pos hn]
      | succ f1 => cases f2 with
        | zero => rw [natDigitsF, natDigitsF, if_pos hn]
        | succ f2 => rw [natDigitsF, natDigitsF, if_pos hn, if_pos hn]
    · have hf1 : f1 ≠ 0 := by omega
      have hf2 : f2 ≠ 0 := by omega
      obtain ⟨g1, rfl⟩ := Nat.exists_eq_succ_of_ne_zero hf1
      obtain ⟨g2, rfl⟩ := Nat.exists_eq_succ_of_ne_zero hf2
      rw [natDigitsF, natDigitsF, if_neg hn, if_neg hn]
      have hd : n / 10 < n := Nat.div_lt_self (by omega) (by omega)
      rw [ih (n / 10) hd (g1) (g2) (by omega) (by omega)]

/-- The recurrence satisfied by `natDigits`: this is the shape of the Go
loop in `strconv.FormatInt` for base 10. -/
theorem natDigits_eq (n : Nat) :
    natDigits n = if n < 10 then [digitChar n]
      else natDigits (n / 10) ++ [digitChar (n % 10)] := by
  by_cases hn : n < 10
  · rw [if_pos hn]
    cases n with
    | zero => rfl
    | succ k => rw [natDigits, natDigitsF, if_pos hn]
  · rw [if_neg hn]
    have hn0 : n ≠ 0 := by omega
    obtain ⟨k, rfl⟩ := Nat.exists_eq_succ_of_ne_zero hn0
    rw [natDigits, natDigitsF, if_neg hn, natDigits]
    have hd : (k + 1) / 10 < k + 1 := Nat.div_lt_self (by omega) (by omega)
    rw [natDigitsF_congr ((k + 1) / 10) k ((k + 1) / 10) (by omega) (by omega)]

/-- `strconv.FormatInt(v, 10)`: decimal representation, with a leading minus
sign for negative values. -/
def formatInt (n : Int) : List Char :=
  if n < 0 then '-' :: natDigits n.natAbs else natDigits n.natAbs

/-- `formatValue` (protocol.go lines 307-329), restricted to the
non-floating-point branches (see `FieldValue`). -/
def formatValue : FieldValue → Except EncErr (List Char)
  | .vInt n => .ok (formatInt n ++ ['i'])
  | .vStr s => .ok ('"' :: (escapeString s.data ++ ['"']))
  | .vBool b => .ok (if b then "true".data else "false".data)
  | .vUnsupported t => .error (.invalidFieldType t)

/-- The precision switch of `lineProtocolV1.Encode` (protocol.go lines
203-219); the factors are `int64(time.X)` in nanoseconds.  An empty or
unrecognized precision leaves the factor at 1 (nanoseconds). -/
def precisionFactor (p : Precision) : Int :=
  if p = "" then 1
  else if p = PrecisionHour then 3600000000000
  else if p = PrecisionMinute then 60000000000
  else if p = PrecisionSecond then 1000000000
  else if p = PrecisionMillisecond then 1000000
  else if p = PrecisionMicrosecond then 1000
  else 1

/-- The measurement and tag section of `Encode` (protocol.go lines 221-230),
including the space separating it from the fields. -/
def encodeHead (pt : Point) : List Char :=
  escapeMeasurement pt.name.data
    ++ (pt.tags.map fun t =>
          ',' :: (escapeTag t.key.data ++ '=' :: escapeTag t.value.data)).flatten
    ++ [' ']

/-- The field loop of `Encode` (protocol.go lines 232-246).  `first` tracks
`i == 0`.  On success it returns the encoded fields.  On a `formatValue`
error it returns the error together with the text written before the
failure: the separating comma, the escaped field key and the `=` are written
to the writer before `formatValue` is called. -/
def encodeFields (first : Bool) :
    List (String × FieldValue) → Except (List Char × EncErr) (List Char)
  | [] => .ok []
  | (k, v) :: fs =>
    let pre := (if first then [] else [',']) ++ (escapeString k.data ++ ['='])
    match formatValue v with
    | .error e => .error (pre, e)
    | .ok val =>
      match encodeFields false fs with
      | .error (written, e) => .error (pre ++ (val ++ written), e)
      | .ok written => .ok (pre ++ (val ++ written))

/-- `lineProtocolV1.Encode` (protocol.go lines 198-254): the written
character sequence paired with the error, if any.  The empty-fields check
happens before anything is written; the head is written before the field
loop; the timestamp (`UnixNano` divided by the precision factor with Go's
truncating `int64` division, which is `Int.tdiv`) is only written when the
time is not the zero time. -/
def Encode (pt : Point) (opt : EncodeOptions) : List Char × Option EncErr :=
  if pt.fields.length = 0 then ([], some .noFields)
  else
    match encodeFields true pt.fields with
    | .error (written, e) => (encodeHead pt ++ written, some e)
    | .ok fieldsStr =>
      (encodeHead pt ++ fieldsStr
        ++ (match pt.time with
            | none => []
            | some t => ' ' :: formatInt (Int.tdiv t (precisionFactor opt.precision)))
        ++ ['\n'], none)

/-! ## Line protocol decoder

The repository contains no line-protocol decoder; the spec (sections 4.1, 6
and 8) nevertheless promises that `decode(encode(point))` round-trips.  The
following decoder is modelled from the spec: it reads the output grammar
`escaped-measurement[,escaped-tag-key=escaped-tag-value]*
escaped-field-key=formatted-value[,...][ timestamp]\n` back, undoing the
escaping rules of section 4.1. -/

/-- Modelled from the spec: scanning of an escaped token (measurement, tag
key/value or field key) up to the first unescaped stop character; a
backslash-prefixed character is taken literally.  Returns the unescaped token
and the unconsumed rest (beginning with the stop character, or empty).  A
trailing lone backslash is malformed. -/
def scanEsc (stops : List Char) : List Char → Option (List Char × List Char)
  | [] => some ([], [])
  | '\\' :: [] => none
  | '\\' :: d :: ds => (scanEsc stops ds).map fun p => (d :: p.1, p.2)
  | c :: cs =>
    if c ∈ stops then some ([], c :: cs)
    else (scanEsc stops cs).map fun p => (c :: p.1, p.2)

/-- Modelled from the spec: scanning of an unescaped token (an unquoted field
value or the timestamp) up to the first stop character. -/
def scanPlain (stops : List Char) : List Char → List Char × List Char
  | [] => ([], [])
  | c :: cs =>
    if c ∈ stops then ([], c :: cs)
    else
      let p := scanPlain stops cs
      (c :: p.1, p.2)

/-- Modelled from the spec: the body of a quoted string field value up to the
closing unescaped double quote, undoing the backslash escaping. -/
def scanQuoted : List Char → Option (List Char × List Char)
  | [] => none
  | '\\' :: [] => none
  | '\\' :: d :: ds => (scanQuoted ds).map fun p => (d :: p.1, p.2)
  | c :: cs =>
    if c = '"' then some ([], cs)
    else (scanQuoted cs).map fun p => (c :: p.1, p.2)

theorem scanEsc_cons_ne {stops : List Char} {c : Char} {cs : List Char} (hc : c ≠ '\\') :
    scanEsc stops (c :: cs) =
      if c ∈ stops then some ([], c :: cs)
      else (scanEsc stops cs).map fun p => (c :: p.1, p.2) := by
  rcases cs with - | ⟨d, ds⟩
  · rw [scanEsc.eq_def]
    simp [hc]
  · rw [scanEsc.eq_def]
    simp [hc]

theorem scanQuoted_cons_ne {c : Char} {cs : List Char} (hc : c ≠ '\\') :
    scanQuoted (c :: cs) =
      if c = '"' then some ([], cs)
      else (scanQuoted cs).map fun p => (c :: p.1, p.2) := by
  rcases cs with - | ⟨d, ds⟩
  · rw [scanQuoted.eq_def]
    simp [hc]
  · rw [scanQuoted.eq_def]
    simp [hc]

theorem scanEsc_rest_le {stops : List Char} {l tok rest : List Char}
    (h : scanEsc stops l = some (tok, rest)) : rest.length ≤ l.length := by
  induction l using scanEsc.induct stops generalizing tok rest with
  | case1 => simp_all [scanEsc]
  | case2 => simp_all [scanEsc]
  | case3 d ds ih =>
    simp only [scanEsc, Option.map_eq_some'] at h
    obtain ⟨⟨t2, r2⟩, hrec, heq⟩ := h
    simp at heq
    obtain ⟨-, rfl⟩ := heq
    have := ih hrec
    simp only [List.length_cons]
    omega
  | case4 c cs h1 h2 hmem =>
    have hc : c ≠ '\\' := by
      rintro rfl
      rcases cs with - | ⟨d, ds⟩
      · exact h1 rfl rfl
      · exact h2 d ds rfl rfl
    rw [scanEsc_cons_ne hc, if_pos hmem] at h
    simp at h
    obtain ⟨-, rfl⟩ := h
    simp
  | case5 c cs h1 h2 hmem ih =>
    have hc : c ≠ '\\' := by
      rintro rfl
      rcases cs with - | ⟨d, ds⟩
      · exact h1 rfl rfl
      · exact h2 d ds rfl rfl
    rw [scanEsc_cons_ne hc, if_neg hmem] at h
    simp only [Option.map_eq_some'] at h
    obtain ⟨⟨t2, r2⟩, hrec, heq⟩ := h
    simp at heq
    obtain ⟨-, rfl⟩ := heq
    have := ih hrec
    simp only [List.length_cons]
    omega

theorem scanPlain_rest_le (stops : List Char) (l : List Char) :
    (scanPlain stops l).2.length ≤ l.length := by
  induction l with
  | nil => simp [scanPlain]
  | cons c cs ih =>
    by_cases hc : c ∈ stops
    · simp [scanPlain, hc]
    · simp only [scanPlain, if_neg hc]
      simp only [List.length_cons]
      omega

theorem scanQuoted_rest_le {l tok rest : List Char}
    (h : scanQuoted l = some (tok, rest)) : rest.length ≤ l.length := by
  induction l using scanQuoted.induct generalizing tok rest with
  | case1 => simp_all [scanQuoted]
  | case2 => simp_all [scanQuoted]
  | case3 d ds ih =>
    simp only [scanQuoted, Option.map_eq_some'] at h
    obtain ⟨⟨t2, r2⟩, hrec, heq⟩ := h
    simp at heq
    obtain ⟨-, rfl⟩ := heq
    have := ih hrec
    simp only [List.length_cons]
    omega
  | case4 cs h1 h2 =>
    rw [scanQuoted_cons_ne (by decide), if_pos rfl] at h
    simp at h
    obtain ⟨-, rfl⟩ := h
    simp
  | case5 c cs h1 h2 hq ih =>
    have hc : c ≠ '\\' := by
      rintro rfl
      rcases cs with - | ⟨d, ds⟩
      · exact h1 rfl rfl
      · exact h2 d ds rfl rfl
    rw [scanQuoted_cons_ne hc, if_neg hq] at h
    simp only [Option.map_eq_some'] at h
    obtain ⟨⟨t2, r2⟩, hrec, heq⟩ := h
    simp at heq
    obtain ⟨-, rfl⟩ := heq
    have := ih hrec
    simp only [List.length_cons]
    omega

/-- Modelled from the spec: decimal digit value of a character. -/
def digitVal (c : Char) : Option Nat :=
  if c = '0' then some 0
  else if c = '1' then some 1
  else if c = '2' then some 2
  else if c = '3' then some 3
  else if c = '4' then some 4
  else if c = '5' then some 5
  else if c = '6' then some 6
  else if c = '7' then some 7
  else if c = '8' then some 8
  else if c = '9' then some 9
  else none

/-- Modelled from the spec: left-to-right accumulation of decimal digits. -/
def parseDigitsAux (acc : Nat) : List Char → Option Nat
  | [] => some acc
  | c :: cs =>
    match digitVal c with
    | some d => parseDigitsAux (acc * 10 + d) cs
    | none => none

/-- Modelled from the spec: a non-empty run of decimal digits. -/
def parseNat (l : List Char) : Option Nat :=
  if l = [] then none else parseDigitsAux 0 l

/-- Modelled from the spec: a decimal integer with optional leading minus
sign (the timestamp and the digits of an integer field value). -/
def parseInt : List Char → Option Int
  | '-' :: cs => (parseNat cs).map fun n => -(n : Int)
  | l => (parseNat l).map fun n => (n : Int)

/-- Modelled from the spec: an unquoted field value token.  `true`/`false`
are booleans; a token ending in `i` with an integer body is an integer field
(section 4.1: decimal digits followed by a literal `i`).  Anything else
(including the float rendering, outside this embedding) is not decoded. -/
def parseFieldValue (tok : List Char) : Option FieldValue :=
  if tok = "true".data then some (.vBool true)
  else if tok = "false".data then some (.vBool false)
  else
    match tok.reverse with
    | 'i' :: rds => (parseInt rds.reverse).map .vInt
    | _ => none

/-- Modelled from the spec: one field value: either a quoted, escaped string
or an unquoted token.  Returns the value and the unconsumed rest. -/
def parseValue : List Char → Option (FieldValue × List Char)
  | '"' :: cs =>
    match scanQuoted cs with
    | some (tok, rest) => some (.vStr (String.mk tok), rest)
    | none => none
  | l =>
    match parseFieldValue (scanPlain [',', ' ', '\n'] l).1 with
    | some v => some (v, (scanPlain [',', ' ', '\n'] l).2)
    | none => none

theorem parseValue_quote (cs : List Char) :
    parseValue ('"' :: cs) =
      match scanQuoted cs with
      | some (tok, rest) => some (.vStr (String.mk tok), rest)
      | none => none := rfl

theorem parseValue_cons_ne {c : Char} (cs : List Char) (hc : c ≠ '"') :
    parseValue (c :: cs) =
      match parseFieldValue (scanPlain [',', ' ', '\n'] (c :: cs)).1 with
      | some v => some (v, (scanPlain [',', ' ', '\n'] (c :: cs)).2)
      | none => none := by
  rw [parseValue.eq_def]
  simp [hc]

theorem parseValue_rest_le {l : List Char} {v rest}
    (h : parseValue l = some (v, rest)) : rest.length ≤ l.length := by
  match l with
  | [] =>
    rw [parseValue.eq_def] at h
    simp [scanPlain, parseFieldValue] at h
  | '"' :: cs =>
    rw [parseValue_quote] at h
    cases hq : scanQuoted cs with
    | none => rw [hq] at h; simp at h
    | some p =>
      obtain ⟨tok, r2⟩ := p
      rw [hq] at h
      simp at h
      obtain ⟨-, rfl⟩ := h
      have := scanQuoted_rest_le hq
      simp only [List.length_cons]
      omega
  | c :: cs =>
    by_cases hc : c = '"'
    · subst hc
      rw [parseValue_quote] at h
      cases hq : scanQuoted cs with
      | none => rw [hq] at h; simp at h
      | some p =>
        obtain ⟨tok, r2⟩ := p
        rw [hq] at h
        simp at h
        obtain ⟨-, rfl⟩ := h
        have := scanQuoted_rest_le hq
        simp only [List.length_cons]
        omega
    · rw [parseValue_cons_ne cs hc] at h
      have hlen := scanPlain_rest_le [',', ' ', '\n'] (c :: cs)
      cases hp : parseFieldValue (scanPlain [',', ' ', '\n'] (c :: cs)).1 with
      | none => rw [hp] at h; simp at h
      | some fv =>
        rw [hp] at h
        simp at h
        obtain ⟨-, rfl⟩ := h
        exact hlen

/-- Modelled from the spec: the decoded form of one line, for comparison
against the `Point` that produced it. -/
structure DecodedPoint where
  name : List Char
  tags : List (List Char × List Char)
  fields : List (List Char × FieldValue)
  time : Option Int
deriving DecidableEq, Repr

/-- Modelled from the spec: the tag section
`[,escaped-tag-key=escaped-tag-value]*`, with an explicit recursion bound
(any bound of at least the input length is enough, `decodeTagsF_congr`);
stops at the first character that does not open another tag. -/
def decodeTagsF : Nat → List Char → Option (List (List Char × List Char) × List Char)
  | 0, l =>
    match l with
    | ',' :: _ => none
    | _ => some ([], l)
  | fuel + 1, l =>
    match l with
    | ',' :: cs =>
      match scanEsc ['='] cs with
      | none => none
      | some (k, r1) =>
        match r1 with
        | '=' :: r2 =>
          match scanEsc [',', ' '] r2 with
          | none => none
          | some (tv, r3) =>
            match decodeTagsF fuel r3 with
            | none => none
            | some (ts, rest) => some ((k, tv) :: ts, rest)
        | _ => none
    | _ => some ([], l)

/-- Modelled from the spec: the tag section of a line. -/
def decodeTags (l : List Char) : Option (List (List Char × List Char) × List Char) :=
  decodeTagsF l.length l

theorem decodeTagsF_congr : ∀ (f1 : Nat) (l : List Char) (f2 : Nat),
    l.length ≤ f1 → l.length ≤ f2 → decodeTagsF f1 l = decodeTagsF f2 l := by
  intro f1
  induction f1 using Nat.strong_induction_on with
  | _ f1 ih =>
    intro l f2 h1 h2
    match l with
    | [] => cases f1 <;> cases f2 <;> rfl
    | c :: cs =>
      have hf1 : f1 ≠ 0 := by simp at h1; omega
      have hf2 : f2 ≠ 0 := by simp at h2; omega
      obtain ⟨g1, rfl⟩ := Nat.exists_eq_succ_of_ne_zero hf1
      obtain ⟨g2, rfl⟩ := Nat.exists_eq_succ_of_ne_zero hf2
      by_cases hc : c = ','
      · subst hc
        simp only [List.length_cons] at h1 h2
        cases hs1 : scanEsc ['='] cs with
        | none => rw [decodeTagsF, decodeTagsF, hs1]
        | some p1 =>
          obtain ⟨k, r1⟩ := p1
          have e1 := scanEsc_rest_le hs1
          rcases r1 with - | ⟨c2, r2⟩
          · rw [decodeTagsF, decodeTagsF, hs1]
          by_cases hc2 : c2 = '='
          · subst hc2
            cases hs3 : scanEsc [',', ' '] r2 with
            | none =>
              rw [decodeTagsF, decodeTagsF, hs1]
              simp only [hs3]
            | some p3 =>
              obtain ⟨tv, r3⟩ := p3
              have e3 := scanEsc_rest_le hs3
              simp only [List.length_cons] at e1
              rw [decodeTagsF, decodeTagsF, hs1]
              simp only [hs3]
              rw [ih g1 (by omega) r3 g2 (by omega) (by omega)]
          · rw [decodeTagsF, decodeTagsF, hs1]
            simp [hc2]
      · rw [decodeTagsF, decodeTagsF]
        all_goals
          intro tail heq
          injection heq with hh1 hh2
          exact hc hh1

/-- Modelled from the spec: the field section
`escaped-field-key=formatted-value[,...]` with an explicit recursion bound
(any bound of at least the input length is enough, `decodeFieldsF_congr`);
at least one field, fields separated by commas. -/
def decodeFieldsF : Nat → List Char → Option (List (List Char × FieldValue) × List Char)
  | fuel, l =>
    match scanEsc ['='] l with
    | none => none
    | some (k, r1) =>
      match r1 with
      | '=' :: r2 =>
        match parseValue r2 with
        | none => none
        | some (v, r3) =>
          match r3 with
          | ',' :: r4 =>
            match fuel with
            | 0 => none
            | fuel + 1 =>
              match decodeFieldsF fuel r4 with
              | none => none
              | some (fs, rest) => some ((k, v) :: fs, rest)
          | _ => some ([(k, v)], r3)
      | _ => none

/-- Modelled from the spec: the field section of a line. -/
def decodeFields (l : List Char) : Option (List (List Char × FieldValue) × List Char) :=
  decodeFieldsF l.length l

theorem decodeFieldsF_congr : ∀ (f1 : Nat) (l : List Char) (f2 : Nat),
    l.length ≤ f1 → l.length ≤ f2 → decodeFieldsF f1 l = decodeFieldsF f2 l := by
  intro f1
  induction f1 using Nat.strong_induction_on with
  | _ f1 ih =>
    intro l f2 h1 h2
    rw [decodeFieldsF, decodeFieldsF]
    cases hs1 : scanEsc ['='] l with
    | none => rfl
    | some p1 =>
      obtain ⟨k, r1⟩ := p1
      have e1 := scanEsc_rest_le hs1
      rcases r1 with - | ⟨c2, r2⟩
      · rfl
      by_cases hc2 : c2 = '='
      · subst hc2
        simp only
        cases hs3 : parseValue r2 with
        | none => rfl
        | some p3 =>
          obtain ⟨v, r3⟩ := p3
          have e3 := parseValue_rest_le hs3
          simp only [List.length_cons] at e1
          rcases r3 with - | ⟨c4, r4⟩
          · rfl
          by_cases hc4 : c4 = ','
          · subst hc4
            simp only
            simp only [List.length_cons] at e3
            have hf1 : f1 ≠ 0 := by omega
            have hf2 : f2 ≠ 0 := by omega
            obtain ⟨g1, rfl⟩ := Nat.exists_eq_succ_of_ne_zero hf1
            obtain ⟨g2, rfl⟩ := Nat.exists_eq_succ_of_ne_zero hf2
            simp only
            rw [ih g1 (by omega) r4 g2 (by omega) (by omega)]
          · simp [hc4]
      · simp [hc2]

/-- Modelled from the spec: the end of the line after the fields: either the
terminating newline (no timestamp) or a space, the integer timestamp and the
newline, with nothing after. -/
def decodeTail (l : List Char) : Option (Option Int) :=
  match l with
  | ['\n'] => some none
  | ' ' :: cs =>
    match (scanPlain ['\n'] cs).2 with
    | ['\n'] => (parseInt (scanPlain ['\n'] cs).1).map some
    | _ => none
  | _ => none

/-- Modelled from the spec: decode one encoded line back into its
measurement, tags, fields and timestamp (spec sections 4.1, 6 and 8: the
grammar `escaped-measurement[,escaped-tag-key=escaped-tag-value]*
escaped-field-key=formatted-value[,...][ timestamp]\n`). -/
def decodeLine (l : List Char) : Option DecodedPoint :=
  match scanEsc [',', ' '] l with
  | none => none
  | some (meas, r1) =>
    match decodeTags r1 with
    | none => none
    | some (ts, r2) =>
      match r2 with
      | ' ' :: r3 =>
        match decodeFields r3 with
        | none => none
        | some (fs, r4) =>
          match decodeTail r4 with
          | none => none
          | some t => some ⟨meas, ts, fs, t⟩
      | _ => none

/-! ## Projections used by the claim statements -/

/-- The error of a `NextSet` outcome, if any. -/
def NextSetRes.errOf : NextSetRes V → Option CErr
  | .ok .. => none
  | .fail e .. => some e

/-- The result-handle state carried by a `NextSeries` outcome. -/
def NSRes.resultState : NSRes V → RState V
  | .ok _ r _ => r
  | .fail _ _ r => r

/-- The result-handle state carried by a skip-loop outcome. -/
def SkipRes.rstate : SkipRes V → RState V
  | .ok _ r => r
  | .fail _ _ r => r

/-- The result-handle state carried by a `NextRow` outcome (`none` when the
code panicked). -/
def NRRes.rstateOf : NRRes V → Option (RState V)
  | .row _ _ r _ => some r
  | .fail _ _ r _ => some r
  | .panicked => none

/-! ## Theorems -/

/-- Claim C10.  The claim states that `Series.NextRow` always returns a row
or an error, tolerating a decoded document whose `results` array is empty
and never decoding over buffered results.  The code violates this: the fetch
in `jsonSeries.NextRow` calls `dec.Decode` once and unconditionally
(json_cursor.go line 328, under a comment promising to fill "until we have
something", where `NextSet` and `NextSeries` use `for len(buf.Results) == 0`
loops) and then indexes `buf.Results[0]` (line 338).  Evaluated here: with a
partial series whose continuation must be fetched, a next document decoding
to an empty `results` array drives `NextRow` into the out-of-range index
(Go runtime panic) — even when the cursor buffer already holds a good
buffered result, which the unconditional decode overwrites. -/
theorem nextRow_panics_on_empty_results_document :
    nextRow (V := Nat) ⟨[[]], []⟩
        ⟨[], true, "", 0, [], true⟩ ⟨"cpu", [], 1, [], true, false⟩ = .panicked
    ∧ nextRow (V := Nat) ⟨[[]], [⟨[⟨"cpu", [], ["value"], [[0]], false⟩], [], false, ""⟩]⟩
        ⟨[], true, "", 0, [], true⟩ ⟨"cpu", [], 1, [], true, false⟩ = .panicked := by
  constructor <;> (rw [nextRow.eq_def]; rfl)

/-- Claim C7: whenever `NextSet` dequeues a result whose error string is
non-empty, it returns an error carrying exactly the server's message and no
`ResultSet` (the `fail` outcome carries no result handle; the errored result
is left at the head of the buffer). -/
theorem nextSet_surfaces_result_error {w : World V} {res : JsonResult V}
    {rest : List (JsonResult V)} {ds : List (List (JsonResult V))}
    (hfill : fillWorld w.buf w.docs = some (res, rest, ds))
    (herr : res.err ≠ "") :
    nextSet w none = .fail (.resultErr res.err) ⟨ds, res :: rest⟩ (some (toRState res)) := by
  rw [nextSet]
  unfold nextSetFresh
  rw [hfill]
  simp [herr]

/-- Witness for C7: the spec's example, a result with error message `boom`. -/
theorem nextSet_surfaces_result_error_witness :
    fillWorld (V := Nat) [⟨[], [], false, "boom"⟩] [] = some (⟨[], [], false, "boom"⟩, [], [])
    ∧ ("boom" : String) ≠ ""
    ∧ nextSet (V := Nat) ⟨[], [⟨[], [], false, "boom"⟩]⟩ none
        = .fail (.resultErr "boom") ⟨[], [⟨[], [], false, "boom"⟩]⟩
            (some (toRState ⟨[], [], false, "boom"⟩)) :=
  ⟨rfl, by decide,
    nextSet_surfaces_result_error (w := ⟨[], [⟨[], [], false, "boom"⟩]⟩) rfl (by decide)⟩

/-- Counterexample to claim C8 as stated: after `NextSet` surfaced the
result-error `boom`, a second `NextSet` call (the cursor state and `c.cur`
being exactly what the first call left behind) returns the very same
result-error with the very same state instead of reaching the following
result in the stream — the post-error state is a fixpoint, so no number of
`NextSet` calls can look past the errored result. -/
theorem nextSet_retry_counterexample :
    nextSet (V := Nat)
        ⟨[], [⟨[], [], false, "boom"⟩, ⟨[⟨"cpu", [], ["value"], [[7]], false⟩], [], false, ""⟩]⟩
        (some (toRState ⟨[], [], false, "boom"⟩))
      = .fail (.resultErr "boom")
          ⟨[], [⟨[], [], false, "boom"⟩, ⟨[⟨"cpu", [], ["value"], [[7]], false⟩], [], false, ""⟩]⟩
          (some (toRState ⟨[], [], false, "boom"⟩)) := by
  rw [nextSet, drainResults.eq_def]
  rfl

/-- Claim C8 (amended): after `NextSet` surfaces a result-error, the cursor
has indeed not advanced past that result (the buffer and stream are
unchanged, the errored result still at the buffer head), but a caller who
calls `NextSet` again does not reach the following result: the call returns
the same result-error with the same state again, so the following result is
unreachable through `NextSet`. -/
theorem nextSet_errored_result_is_sticky {w : World V} {E : JsonResult V}
    {rest : List (JsonResult V)}
    (hbuf : w.buf = E :: rest) (herr : E.err ≠ "") (hpart : E.partFlag = false) :
    nextSet w none = .fail (.resultErr E.err) w (some (toRState E))
    ∧ nextSet w (some (toRState E)) = .fail (.resultErr E.err) w (some (toRState E)) := by
  obtain ⟨docs, buf⟩ := w
  simp only at hbuf
  subst hbuf
  have hfresh : nextSetFresh (⟨docs, E :: rest⟩ : World V)
      = .fail (.resultErr E.err) ⟨docs, E :: rest⟩ (some (toRState E)) := by
    unfold nextSetFresh
    simp [fillWorld, herr]
  refine ⟨?_, ?_⟩
  · rw [nextSet]
    exact hfresh
  · rw [nextSet, drainResults.eq_def]
    have hp : (toRState E).partFlag = false := hpart
    rw [hp]
    simpa using hfresh

/-- Witness for the amended C8. -/
theorem nextSet_errored_result_is_sticky_witness :
    (([⟨[], [], false, "boom"⟩, ⟨[], [], false, ""⟩] : List (JsonResult Nat))
        = ⟨[], [], false, "boom"⟩ :: [⟨[], [], false, ""⟩])
    ∧ ("boom" : String) ≠ "" ∧ (false = false)
    ∧ (nextSet (V := Nat) ⟨[], [⟨[], [], false, "boom"⟩, ⟨[], [], false, ""⟩]⟩ none
        = .fail (.resultErr "boom") ⟨[], [⟨[], [], false, "boom"⟩, ⟨[], [], false, ""⟩]⟩
            (some (toRState ⟨[], [], false, "boom"⟩))
      ∧ nextSet (V := Nat) ⟨[], [⟨[], [], false, "boom"⟩, ⟨[], [], false, ""⟩]⟩
            (some (toRState ⟨[], [], false, "boom"⟩))
        = .fail (.resultErr "boom") ⟨[], [⟨[], [], false, "boom"⟩, ⟨[], [], false, ""⟩]⟩
            (some (toRState ⟨[], [], false, "boom"⟩))) :=
  ⟨rfl, by decide, rfl,
    nextSet_errored_result_is_sticky
      (w := ⟨[], [⟨[], [], false, "boom"⟩, ⟨[], [], false, ""⟩]⟩) rfl (by decide) rfl⟩

theorem fillWorld_mem {buf : List (JsonResult V)} {docs res rest ds}
    {P : JsonResult V → Prop}
    (h : fillWorld buf docs = some (res, rest, ds))
    (hbuf : ∀ x ∈ buf, P x) (hdocs : ∀ d ∈ docs, ∀ x ∈ d, P x) :
    P res ∧ (∀ x ∈ rest, P x) ∧ (∀ d ∈ ds, ∀ x ∈ d, P x) := by
  induction docs generalizing buf with
  | nil =>
    cases buf with
    | nil => simp [fillWorld] at h
    | cons r bs =>
      simp only [fillWorld, Option.some.injEq, Prod.mk.injEq] at h
      obtain ⟨rfl, rfl, rfl⟩ := h
      exact ⟨hbuf _ (by simp), fun x hx => hbuf x (by simp [hx]), hdocs⟩
  | cons d ds' ih =>
    cases buf with
    | nil =>
      exact ih (show fillWorld d ds' = some (res, rest, ds) from h)
        (hdocs d (by simp)) (fun d2 hd2 => hdocs d2 (by simp [hd2]))
    | cons r bs =>
      simp only [fillWorld, Option.some.injEq, Prod.mk.injEq] at h
      obtain ⟨rfl, rfl, rfl⟩ := h
      exact ⟨hbuf _ (by simp), fun x hx => hbuf x (by simp [hx]), hdocs⟩

theorem fillWorld_none_of_empty {docs : List (List (JsonResult V))}
    (hdocs : ∀ d ∈ docs, d = []) : fillWorld ([] : List (JsonResult V)) docs = none := by
  induction docs with
  | nil => rfl
  | cons d ds ih =>
    have hd : d = [] := hdocs d (by simp)
    subst hd
    rw [fillWorld]
    exact ih fun d2 hd2 => hdocs d2 (by simp [hd2])

theorem drainResults_all_partial {r : RState V} {w : World V}
    (hr : r.partFlag = true)
    (hbuf : ∀ res ∈ w.buf, res.partFlag = true)
    (hdocs : ∀ d ∈ w.docs, ∀ res ∈ d, res.partFlag = true) :
    ∃ c, drainResults r w = .failEOF ⟨[], []⟩ c := by
  suffices hgen : ∀ (n : Nat) (r : RState V) (w : World V), totalResults w ≤ n →
      r.partFlag = true →
      (∀ res ∈ w.buf, res.partFlag = true) →
      (∀ d ∈ w.docs, ∀ res ∈ d, res.partFlag = true) →
      ∃ c, drainResults r w = .failEOF ⟨[], []⟩ c by
    exact hgen (totalResults w) r w le_rfl hr hbuf hdocs
  intro n
  induction n with
  | zero =>
    intro r w hn hr hbuf hdocs
    rw [drainResults.eq_def, hr]
    simp only [if_true]
    cases hf : fillWorld w.buf w.docs with
    | none => exact ⟨r, rfl⟩
    | some t =>
      obtain ⟨res, rest, ds⟩ := t
      have hsz := fillWorld_size hf
      simp only [totalResults] at hn
      omega
  | succ n ih =>
    intro r w hn hr hbuf hdocs
    rw [drainResults.eq_def, hr]
    simp only [if_true]
    cases hf : fillWorld w.buf w.docs with
    | none => exact ⟨r, rfl⟩
    | some t =>
      obtain ⟨res, rest, ds⟩ := t
      have hm := fillWorld_mem (P := fun x => x.partFlag = true) hf hbuf hdocs
      have hsz := fillWorld_size hf
      simp only [totalResults] at hn
      exact ih (toRState res) ⟨ds, rest⟩
        (by simp only [totalResults]; omega)
        (by simpa [toRState] using hm.1) hm.2.1 hm.2.2

/-- Claim C2: if the input stream ends while the cursor's current result is
still marked partial (every remaining decoded result is partial, so the
drain never completes before the stream runs out), `NextSet` fails with the
unexpected-end-of-stream error; if the stream ends (no results remain at
all) while the current result is not partial, `NextSet` returns the clean
end-of-stream value; and the two outcomes are distinct values, so the caller
can tell them apart. -/
theorem nextSet_end_of_stream_distinction :
    (∀ (V : Type) (w : World V) (r : RState V),
        r.partFlag = true →
        (∀ res ∈ w.buf, res.partFlag = true) →
        (∀ d ∈ w.docs, ∀ res ∈ d, res.partFlag = true) →
        (nextSet w (some r)).errOf = some CErr.unexpectedEOF)
    ∧ (∀ (V : Type) (w : World V) (r : RState V),
        r.partFlag = false → w.buf = [] → (∀ d ∈ w.docs, d = []) →
        (nextSet w (some r)).errOf = some CErr.eof)
    ∧ CErr.unexpectedEOF ≠ CErr.eof := by
  refine ⟨?_, ?_, by decide⟩
  · intro V w r hr hbuf hdocs
    obtain ⟨c, hc⟩ := drainResults_all_partial hr hbuf hdocs
    rw [nextSet, hc]
    rfl
  · intro V w r hr hbuf hdocs
    rw [nextSet, drainResults.eq_def, hr]
    simp only [Bool.false_eq_true, if_false]
    unfold nextSetFresh
    rw [hbuf, fillWorld_none_of_empty hdocs]
    rfl

/-- Witness for C2: a stream that ends after one partial result triggers the
unexpected-EOF branch; an already-exhausted stream with a non-partial
current result triggers the clean-EOF branch. -/
theorem nextSet_end_of_stream_distinction_witness :
    ((⟨[], true, "", 0, [], true⟩ : RState Nat).partFlag = true
      ∧ (∀ res ∈ (⟨[[⟨[], [], true, ""⟩]], []⟩ : World Nat).buf, res.partFlag = true)
      ∧ (∀ d ∈ (⟨[[⟨[], [], true, ""⟩]], []⟩ : World Nat).docs, ∀ res ∈ d, res.partFlag = true)
      ∧ (nextSet (V := Nat) ⟨[[⟨[], [], true, ""⟩]], []⟩ (some ⟨[], true, "", 0, [], true⟩)).errOf
          = some CErr.unexpectedEOF)
    ∧ ((⟨[], false, "", 0, [], false⟩ : RState Nat).partFlag = false
      ∧ (⟨[[]], []⟩ : World Nat).buf = []
      ∧ (∀ d ∈ (⟨[[]], []⟩ : World Nat).docs, d = [])
      ∧ (nextSet (V := Nat) ⟨[[]], []⟩ (some ⟨[], false, "", 0, [], false⟩)).errOf
          = some CErr.eof) := by
  refine ⟨⟨rfl, by decide, by decide, ?_⟩, ⟨rfl, rfl, by decide, ?_⟩⟩
  · exact nextSet_end_of_stream_distinction.1 Nat ⟨[[⟨[], [], true, ""⟩]], []⟩
      ⟨[], true, "", 0, [], true⟩ rfl (by decide) (by decide)
  · exact nextSet_end_of_stream_distinction.2.1 Nat ⟨[[]], []⟩
      ⟨[], false, "", 0, [], false⟩ rfl rfl (by decide)

theorem nextSeriesSkip_columns (w : World V) (r : RState V) :
    (nextSeriesSkip w r).rstate.columns = r.columns := by
  induction w, r using nextSeriesSkip.induct with
  | case1 w r h hp ih =>
    rw [nextSeriesSkip.eq_def, dif_pos h, if_pos hp]
    simpa using ih
  | case2 w r h hp =>
    rw [nextSeriesSkip.eq_def, dif_pos h, if_neg hp]
    simp [SkipRes.rstate]
  | case3 w r h hp =>
    rw [nextSeriesSkip.eq_def, dif_neg h, if_pos hp]
    simp [SkipRes.rstate]
  | case4 w r h hp ha =>
    rw [nextSeriesSkip.eq_def, dif_neg h, if_neg hp, if_pos ha]
    simp [SkipRes.rstate]
  | case5 w r h hp ha e w' hfe =>
    rw [nextSeriesSkip.eq_def, dif_neg h, if_neg hp, if_neg ha, hfe]
    simp [SkipRes.rstate]
  | case6 w r h hp ha res w' hfe ih =>
    rw [nextSeriesSkip.eq_def, dif_neg h, if_neg hp, if_neg ha, hfe]
    simpa using ih

theorem nextSeriesMain_columns (w : World V) (r : RState V) :
    (nextSeriesMain w r).resultState.columns = r.columns := by
  induction w, r using nextSeriesMain.induct with
  | case1 w r h =>
    rw [nextSeriesMain.eq_def, dif_pos h]
    simp [NSRes.resultState]
  | case2 w r h hp =>
    rw [nextSeriesMain.eq_def, dif_neg h, if_pos hp]
    simp [NSRes.resultState]
  | case3 w r h hp ha =>
    rw [nextSeriesMain.eq_def, dif_neg h, if_neg hp, if_pos ha]
    simp [NSRes.resultState]
  | case4 w r h hp ha e w' hfe =>
    rw [nextSeriesMain.eq_def, dif_neg h, if_neg hp, if_neg ha, hfe]
    simp [NSRes.resultState]
  | case5 w r h hp ha res w' hfe ih =>
    rw [nextSeriesMain.eq_def, dif_neg h, if_neg hp, if_neg ha, hfe]
    simpa using ih

theorem nextSeries_columns (w : World V) (r : RState V) (sPrev : Option (SState V)) :
    (nextSeries w r sPrev).resultState.columns = r.columns := by
  match sPrev with
  | none => exact nextSeriesMain_columns w r
  | some s =>
    rw [nextSeries]
    by_cases hp : s.partFlag
    · rw [if_pos hp]
      cases hsk : nextSeriesSkip w r with
      | ok w' r' =>
        have h1 := nextSeriesSkip_columns w r
        rw [hsk] at h1
        simp only [SkipRes.rstate] at h1
        have h2 := nextSeriesMain_columns w' r'
        simp only [hsk]
        rw [h2, h1]
      | fail e w' r' =>
        have h1 := nextSeriesSkip_columns w r
        rw [hsk] at h1
        simp only [SkipRes.rstate] at h1
        simp only [hsk]
        simpa [NSRes.resultState] using h1
    · rw [if_neg hp]
      exact nextSeriesMain_columns w r

theorem nextRow_columns (w : World V) (r : RState V) (s : SState V) {r' : RState V}
    (h : (nextRow w r s).rstateOf = some r') : r'.columns = r.columns := by
  induction w, r, s using nextRow.induct generalizing r' with
  | case1 w r s v vs hv =>
    rw [nextRow.eq_def, hv] at h
    simp [NRRes.rstateOf] at h
    subst h
    rfl
  | case2 w r s hv hp =>
    rw [nextRow.eq_def, hv] at h
    simp only [hp] at h
    simp [NRRes.rstateOf] at h
    subst h
    rfl
  | case3 w r s hv hp hi =>
    rw [nextRow.eq_def, hv] at h
    simp only [if_neg hp, hi] at h
    simp [NRRes.rstateOf] at h
    subst h
    rfl
  | case4 w r s hv hp hi hidx ih =>
    rw [nextRow.eq_def, hv] at h
    simp only [if_neg hp, if_neg hi, dif_pos hidx] at h
    have := ih h
    simpa using this
  | case5 w r s hv hp hi hidx hrp =>
    rw [nextRow.eq_def, hv] at h
    simp only [if_neg hp, if_neg hi, dif_neg hidx, hrp] at h
    simp [NRRes.rstateOf] at h
    subst h
    rfl
  | case6 w r s hv hp hi hidx hrp hra =>
    rw [nextRow.eq_def, hv] at h
    simp only [if_neg hp, if_neg hi, dif_neg hidx, if_neg hrp, hra] at h
    simp [NRRes.rstateOf] at h
    subst h
    rfl
  | case7 w r s hv hp hi hidx hrp hra hd =>
    obtain ⟨docs, buf⟩ := w
    simp only at hd
    subst hd
    rw [nextRow.eq_def, hv] at h
    simp only [if_neg hp, if_neg hi, dif_neg hidx, if_neg hrp, if_neg hra] at h
    simp [NRRes.rstateOf] at h
    subst h
    rfl
  | case8 w r s hv hp hi hidx hrp hra ds hd hd2 =>
    obtain ⟨docs, buf⟩ := w
    simp only at hd
    subst hd
    rw [nextRow.eq_def, hv] at h
    simp only [if_neg hp, if_neg hi, dif_neg hidx, if_neg hrp, if_neg hra] at h
    simp [NRRes.rstateOf] at h
  | case9 w r s hv hp hi hidx hrp hra ds res rest hd herr hd2 =>
    obtain ⟨docs, buf⟩ := w
    simp only at hd
    subst hd
    rw [nextRow.eq_def, hv] at h
    simp only [if_neg hp, if_neg hi, dif_neg hidx, if_neg hrp, if_neg hra] at h
    rw [if_pos herr] at h
    simp [NRRes.rstateOf] at h
    subst h
    rfl
  | case10 w r s hv hp hi hidx hrp hra ds res rest hd herr hd2 ih =>
    obtain ⟨docs, buf⟩ := w
    simp only at hd
    subst hd
    rw [nextRow.eq_def, hv] at h
    simp only [if_neg hp, if_neg hi, dif_neg hidx, if_neg hrp, if_neg hra] at h
    rw [if_neg herr] at h
    have := ih h
    simpa using this

theorem nextSetFresh_ok_columns {w : World V} {w' : World V} {r' : RState V}
    (h : nextSetFresh w = .ok w' r') :
    r'.columns = match r'.series with | [] => [] | s0 :: _ => s0.columns := by
  unfold nextSetFresh at h
  cases hf : fillWorld w.buf w.docs with
  | none => rw [hf] at h; exact absurd h (by simp)
  | some t =>
    obtain ⟨res, rest, ds⟩ := t
    rw [hf] at h
    by_cases he : res.err ≠ "" <;> simp [he] at h
    obtain ⟨-, rfl⟩ := h
    simp [toRState]

/-- Claim C5: the column list of a `ResultSet` is captured once, from the
first series entry of the dequeued result at the moment `NextSet` returns
it, and no later operation changes it: `NextSeries` and `NextRow` leave the
result handle's `columns` field untouched in every outcome, including when
they replace the series array with continuation documents. -/
theorem result_columns_invariant :
    (∀ (V : Type) (w : World V) (cur : Option (RState V)) (w' : World V) (r' : RState V),
        nextSet w cur = .ok w' r' →
        r'.columns = match r'.series with | [] => [] | s0 :: _ => s0.columns)
    ∧ (∀ (V : Type) (w : World V) (r : RState V) (sPrev : Option (SState V)),
        (nextSeries w r sPrev).resultState.columns = r.columns)
    ∧ (∀ (V : Type) (w : World V) (r : RState V) (s : SState V) (r' : RState V),
        (nextRow w r s).rstateOf = some r' → r'.columns = r.columns) := by
  refine ⟨?_, ?_, ?_⟩
  · intro V w cur w' r' h
    match cur with
    | none =>
      rw [nextSet] at h
      exact nextSetFresh_ok_columns h
    | some r =>
      rw [nextSet] at h
      cases hd : drainResults r w with
      | failEOF w2 c => rw [hd] at h; exact absurd h (by simp)
      | done w2 =>
        rw [hd] at h
        exact nextSetFresh_ok_columns h
  · intro V w r sPrev
    exact nextSeries_columns w r sPrev
  · intro V w r s r' h
    exact nextRow_columns w r s h

/-- Witness for C5, at the spec's basic example data. -/
theorem result_columns_invariant_witness :
    (nextSet (V := Nat) ⟨[[⟨[⟨"cpu", [], ["time", "value"], [[5]], false⟩], [], false, ""⟩]], []⟩ none
        = .ok ⟨[], []⟩ ⟨[⟨"cpu", [], ["time", "value"], [[5]], false⟩], false, "", 0,
            ["time", "value"], false⟩
      ∧ (⟨[⟨"cpu", [], ["time", "value"], [[5]], false⟩], false, "", 0,
            ["time", "value"], false⟩ : RState Nat).columns
          = match (⟨[⟨"cpu", [], ["time", "value"], [[5]], false⟩], false, "", 0,
              ["time", "value"], false⟩ : RState Nat).series with
            | [] => []
            | s0 :: _ => s0.columns)
    ∧ ((nextRow (V := Nat) ⟨[], []⟩
          ⟨[⟨"cpu", [], ["time", "value"], [[5]], false⟩], false, "", 0, ["time", "value"], false⟩
          ⟨"cpu", [], 1, [[5]], false, false⟩).rstateOf
        = some ⟨[⟨"cpu", [], ["time", "value"], [[5]], false⟩], false, "", 0, ["time", "value"], false⟩
      ∧ (⟨[⟨"cpu", [], ["time", "value"], [[5]], false⟩], false, "", 0,
            ["time", "value"], false⟩ : RState Nat).columns
          = (⟨[⟨"cpu", [], ["time", "value"], [[5]], false⟩], false, "", 0,
            ["time", "value"], false⟩ : RState Nat).columns) := by
  refine ⟨⟨?_, ?_⟩, ⟨?_, ?_⟩⟩
  · rw [nextSet]
    rfl
  · exact result_columns_invariant.1 Nat
      ⟨[[⟨[⟨"cpu", [], ["time", "value"], [[5]], false⟩], [], false, ""⟩]], []⟩ none ⟨[], []⟩
      ⟨[⟨"cpu", [], ["time", "value"], [[5]], false⟩], false, "", 0, ["time", "value"], false⟩
      (by rw [nextSet]; rfl)
  · rw [nextRow.eq_def]
    rfl
  · exact result_columns_invariant.2.2 Nat ⟨[], []⟩
      ⟨[⟨"cpu", [], ["time", "value"], [[5]], false⟩], false, "", 0, ["time", "value"], false⟩
      ⟨"cpu", [], 1, [[5]], false, false⟩
      ⟨[⟨"cpu", [], ["time", "value"], [[5]], false⟩], false, "", 0, ["time", "value"], false⟩
      (by rw [nextRow.eq_def]; rfl)

theorem nextRow_cons {w : World V} {r : RState V} {s : SState V} {v : List V}
    {vs : List (List V)} (hv : s.values = v :: vs) :
    nextRow w r s = .row v w r { s with values := vs } := by
  rw [nextRow.eq_def, hv]

theorem collectRows_congr {n : Nat} {w w2 : World V} {r r2 : RState V} {s s2 : SState V}
    (h : nextRow w r s = nextRow w2 r2 s2) :
    collectRows (n + 1) w r s = collectRows (n + 1) w2 r2 s2 := by
  rw [collectRows, collectRows, h]

theorem collectRows_pop (a : List (List V)) (n : Nat) (w : World V) (r : RState V)
    (s : SState V) (hv : s.values = a) :
    collectRows (a.length + n) w r s
      = (a ++ (collectRows n w r { s with values := [] }).1,
         (collectRows n w r { s with values := [] }).2) := by
  induction a generalizing s with
  | nil =>
    obtain ⟨nm, tg, sz, vals, pf, inv⟩ := s
    simp only at hv
    subst hv
    simp
  | cons v vs ih =>
    have hstep : nextRow w r s = .row v w r { s with values := vs } := nextRow_cons hv
    have hfuel : (v :: vs).length + n = (vs.length + n) + 1 := by
      simp only [List.length_cons]
      omega
    rw [hfuel, collectRows, hstep]
    simp only
    rw [ih (s := { s with values := vs }) rfl]
    simp

theorem nextRow_load (sd : JsonSeriesData V) (q : Bool) (ds : List (List (JsonResult V)))
    (b : List (JsonResult V)) {r : RState V} {s : SState V}
    (hv : s.values = []) (hsp : s.partFlag = true) (hsi : s.invalid = false)
    (hidx : r.series.length ≤ r.index) (hrp : r.partFlag = true) (hra : r.attached = true) :
    nextRow ⟨contDoc sd q :: ds, b⟩ r s
      = nextRow ⟨ds, []⟩ { r with series := [sd], partFlag := q, index := 1 }
          { s with values := sd.values, sz := s.sz + sd.values.length,
                   partFlag := sd.partFlag } := by
  have h1 : nextRow (⟨contDoc sd q :: ds, b⟩ : World V) r s
      = nextRow ⟨ds, []⟩ { r with series := [sd], partFlag := q, index := 0 } s := by
    rw [nextRow.eq_def, hv]
    simp only [hsp, hsi, hrp, hra, contDoc]
    rw [dif_neg (by omega)]
    simp
  have h2 : nextRow (⟨ds, []⟩ : World V)
        { r with series := [sd], partFlag := q, index := 0 } s
      = nextRow ⟨ds, []⟩ { r with series := [sd], partFlag := q, index := 1 }
          { s with values := sd.values, sz := s.sz + sd.values.length,
                   partFlag := sd.partFlag } := by
    rw [nextRow.eq_def, hv]
    simp only [hsp, hsi]
    rw [dif_pos (by simp)]
    simp
  rw [h1, h2]

theorem collectRows_chain (l : List (JsonSeriesData V × Bool)) :
    goodChain l = true →
    ∀ (extra : List (List (JsonResult V))) (b : List (JsonResult V))
      (r : RState V) (s : SState V),
      s.values = [] → s.partFlag = true → s.invalid = false →
      r.series.length ≤ r.index → r.partFlag = true → r.attached = true →
      ∃ r2 s2, collectRows ((chainRows l).length + 1) ⟨chainDocs l ++ extra, b⟩ r s
          = (chainRows l, .fail .eof ⟨extra, []⟩ r2 s2)
        ∧ s2.sz = s.sz + (chainRows l).length ∧ s2.partFlag = false := by
  induction l with
  | nil => intro hgood; simp [goodChain] at hgood
  | cons p rest ih =>
    obtain ⟨sd, q⟩ := p
    intro hgood extra b r s hv hsp hsi hidx hrp hra
    have hload := nextRow_load sd q (chainDocs rest ++ extra) b hv hsp hsi hidx hrp hra
    have hdocs : chainDocs ((sd, q) :: rest) ++ extra
        = contDoc sd q :: (chainDocs rest ++ extra) := by
      simp [chainDocs]
    have hrows : chainRows ((sd, q) :: rest) = sd.values ++ chainRows rest := by
      simp [chainRows]
    cases rest with
    | nil =>
      have hsd : sd.partFlag = false := by simpa [goodChain] using hgood
      have hrows1 : chainRows [(sd, q)] = sd.values := by simp [chainRows]
      refine ⟨{ r with series := [sd], partFlag := q, index := 1 },
        { s with values := [], sz := s.sz + sd.values.length, partFlag := sd.partFlag },
        ?_, by simp [hrows1], by simp [hsd]⟩
      rw [hrows1, hdocs]
      have hfuel : sd.values.length + 1 = sd.values.length + 0 + 1 := by omega
      rw [hfuel, collectRows_congr hload]
      rw [collectRows_pop sd.values (0 + 1) _ _ _ (by simp)]
      have hstop : collectRows (0 + 1) (⟨chainDocs ([] : List (JsonSeriesData V × Bool)) ++ extra, []⟩ : World V)
          { r with series := [sd], partFlag := q, index := 1 }
          { s with values := [], sz := s.sz + sd.values.length, partFlag := sd.partFlag }
          = ([], .fail .eof ⟨chainDocs ([] : List (JsonSeriesData V × Bool)) ++ extra, []⟩
              { r with series := [sd], partFlag := q, index := 1 }
              { s with values := [], sz := s.sz + sd.values.length, partFlag := sd.partFlag }) := by
        rw [collectRows, nextRow.eq_def]
        simp [hsd]
      simp only [chainDocs, List.map_nil, List.nil_append] at hstop ⊢
      rw [hstop]
      simp
    | cons p2 rest2 =>
      obtain ⟨⟨hsd, hq⟩, hrest⟩ : (sd.partFlag = true ∧ q = true) ∧ goodChain (p2 :: rest2) = true := by
        have h2 : ((sd.partFlag && q) && goodChain (p2 :: rest2)) = true := hgood
        simpa [Bool.and_eq_true, and_assoc] using h2
      subst hq
      obtain ⟨r2, s2, hc, hsz2, hpf2⟩ := ih hrest extra []
        { r with series := [sd], partFlag := true, index := 1 }
        { s with values := [], sz := s.sz + sd.values.length, partFlag := sd.partFlag }
        rfl (by simpa using hsd) (by simpa using hsi) (by simp) rfl (by simpa using hra)
      refine ⟨r2, s2, ?_, ?_, hpf2⟩
      · rw [hrows, hdocs]
        have hfuel : (sd.values ++ chainRows (p2 :: rest2)).length + 1
            = (sd.values.length + (chainRows (p2 :: rest2)).length) + 1 := by
          rw [List.length_append]
        rw [hfuel, collectRows_congr hload, Nat.add_assoc]
        rw [collectRows_pop sd.values ((chainRows (p2 :: rest2)).length + 1) _ _ _ (by simp)]
        simp [hc]
      · simp only at hsz2
        rw [hsz2, hrows]
        simp [List.length_append]
        omega

/-- Claim C1: for a series returned by `NextSeries` that is marked partial
(remaining rows `A`, cumulative size `A.length`, enclosing result partial,
attached, its in-memory series array exhausted) whose continuations arrive
as the first series entry of each following decoded document (`chainDocs l`,
all chunks but the last marked partial, the last one not), `NextRow`
transparently yields the rows of the original chunk followed by the rows of
every continuation chunk, in order, and then the clean end of the series;
afterwards `Len` reports the cumulative row count over all chunks together
with `complete = true`, the most recently loaded chunk being non-partial.
Documents beyond the chain (`extra`) are left unconsumed. -/
theorem nextRow_partial_series_continuation
    (V : Type) (A : List (List V)) (l : List (JsonSeriesData V × Bool))
    (extra : List (List (JsonResult V))) (b : List (JsonResult V))
    (r : RState V) (s : SState V)
    (hgood : goodChain l = true)
    (hv : s.values = A) (hsz : s.sz = A.length) (hsp : s.partFlag = true)
    (hsi : s.invalid = false)
    (hidx : r.series.length ≤ r.index) (hrp : r.partFlag = true) (hra : r.attached = true) :
    ∃ r2 s2,
      collectRows (A.length + ((chainRows l).length + 1)) ⟨chainDocs l ++ extra, b⟩ r s
        = (A ++ chainRows l, .fail .eof ⟨extra, []⟩ r2 s2)
      ∧ s2.len = (A.length + (chainRows l).length, true) := by
  obtain ⟨r2, s2, hc, hsz2, hpf2⟩ := collectRows_chain l hgood extra b r
    { s with values := [] } rfl (by simpa using hsp) (by simpa using hsi) hidx hrp hra
  refine ⟨r2, s2, ?_, ?_⟩
  · rw [collectRows_pop A ((chainRows l).length + 1) _ _ _ hv]
    simp [hc]
  · simp only at hsz2
    rw [SState.len, hsz2, hpf2, hsz]
    simp

/-- Witness for C1: two rows in the original chunk, one partial continuation
chunk with one row, and a final non-partial chunk with two rows. -/
theorem nextRow_partial_series_continuation_witness :
    goodChain (V := Nat)
        [(⟨"cpu", [], ["v"], [[3]], true⟩, true), (⟨"cpu", [], ["v"], [[4], [5]], false⟩, false)]
        = true
    ∧ (∃ r2 s2,
        collectRows (2 + (3 + 1))
            ⟨chainDocs [(⟨"cpu", [], ["v"], [[3]], true⟩, true),
                        (⟨"cpu", [], ["v"], [[4], [5]], false⟩, false)] ++ [], []⟩
            (⟨[], true, "", 0, [], true⟩ : RState Nat)
            (⟨"cpu", [], 2, [[1], [2]], true, false⟩ : SState Nat)
          = ([[1], [2]] ++ chainRows [(⟨"cpu", [], ["v"], [[3]], true⟩, true),
                                      (⟨"cpu", [], ["v"], [[4], [5]], false⟩, false)],
             .fail .eof ⟨[], []⟩ r2 s2)
        ∧ s2.len = (2 + 3, true)) := by
  refine ⟨by decide, ?_⟩
  exact nextRow_partial_series_continuation Nat [[1], [2]]
    [(⟨"cpu", [], ["v"], [[3]], true⟩, true), (⟨"cpu", [], ["v"], [[4], [5]], false⟩, false)]
    [] [] ⟨[], true, "", 0, [], true⟩ ⟨"cpu", [], 2, [[1], [2]], true, false⟩
    (by decide) rfl rfl rfl rfl (by simp) rfl rfl

/-- Claim C9: encoding a point whose fields map is empty fails with the
no-fields error before anything is written: the writer receives no bytes. -/
theorem encode_no_fields {pt : Point} {opt : EncodeOptions} (h : pt.fields = []) :
    Encode pt opt = ([], some .noFields) := by
  unfold Encode
  rw [h]
  rfl

/-- Witness for C9. -/
theorem encode_no_fields_witness :
    (Point.mk "cpu" [⟨"host", "server01"⟩] [] (some 42)).fields = []
    ∧ Encode ⟨"cpu", [⟨"host", "server01"⟩], [], some 42⟩ ⟨"ms"⟩ = ([], some .noFields) :=
  ⟨rfl, @encode_no_fields ⟨"cpu", [⟨"host", "server01"⟩], [], some 42⟩ ⟨"ms"⟩ rfl⟩

theorem encode_ok_shape (pt : Point) (opt : EncodeOptions) (fieldsStr : List Char)
    (hf : encodeFields true pt.fields = .ok fieldsStr) (hne : pt.fields ≠ []) :
    Encode pt opt
      = (encodeHead pt ++ fieldsStr
          ++ (match pt.time with
              | none => []
              | some t => ' ' :: formatInt (Int.tdiv t (precisionFactor opt.precision)))
          ++ ['\n'], none) := by
  have hlen : ¬ pt.fields.length = 0 := by
    simpa [List.length_eq_zero] using hne
  unfold Encode
  simp only [hlen, if_false]
  rw [hf]

/-- Claim C6: for a point whose fields encode successfully, every precision
in the table `ns, u (µs), ms, s, m, h` (and the empty default) makes the
encoded line end with a space, the decimal rendering of the point's
Unix-nanosecond time divided by 1, 1e3, 1e6, 1e9, 60e9, 3600e9 respectively
with Go's truncating integer division, and the newline; the same point with
its time unset produces the same line with the timestamp section omitted
entirely. -/
theorem encode_timestamp_precision (pt : Point) (t : Int) (fieldsStr : List Char)
    (hf : encodeFields true pt.fields = .ok fieldsStr) (hne : pt.fields ≠ []) :
    ∃ pre,
      (∀ p d, (p, d) ∈ [("", (1 : Int)), (PrecisionNanosecond, 1), (PrecisionMicrosecond, 1000),
            (PrecisionMillisecond, 1000000), (PrecisionSecond, 1000000000),
            (PrecisionMinute, 60000000000), (PrecisionHour, 3600000000000)] →
          Encode { pt with time := some t } ⟨p⟩
            = (pre ++ ' ' :: formatInt (Int.tdiv t d) ++ ['\n'], none))
      ∧ Encode { pt with time := none } ⟨""⟩ = (pre ++ ['\n'], none) := by
  refine ⟨encodeHead pt ++ fieldsStr, ?_, ?_⟩
  · intro p d hm
    simp only [List.mem_cons, List.mem_nil_iff, or_false, Prod.mk.injEq] at hm
    rcases hm with ⟨rfl, rfl⟩ | ⟨rfl, rfl⟩ | ⟨rfl, rfl⟩ | ⟨rfl, rfl⟩ | ⟨rfl, rfl⟩
      | ⟨rfl, rfl⟩ | ⟨rfl, rfl⟩ <;>
    · rw [encode_ok_shape { pt with time := some t } ⟨_⟩ fieldsStr hf hne]
      have hh : encodeHead { pt with time := some t } = encodeHead pt := rfl
      rw [hh]
      simp [precisionFactor, PrecisionNanosecond, PrecisionMicrosecond,
        PrecisionMillisecond, PrecisionSecond, PrecisionMinute, PrecisionHour]
  · rw [encode_ok_shape { pt with time := none } ⟨""⟩ fieldsStr hf hne]
    have hh : encodeHead { pt with time := none } = encodeHead pt := rfl
    rw [hh]
    simp

/-- Witness for C6: a single integer field, a time one nanosecond before a
whole hour (showing truncation), and every precision of the table. -/
theorem encode_timestamp_precision_witness :
    encodeFields true [("value", FieldValue.vInt 5)] = .ok ("value=5i".data)
    ∧ ([("value", FieldValue.vInt 5)] : List (String × FieldValue)) ≠ []
    ∧ ∃ pre,
      (∀ p d, (p, d) ∈ [("", (1 : Int)), (PrecisionNanosecond, 1), (PrecisionMicrosecond, 1000),
            (PrecisionMillisecond, 1000000), (PrecisionSecond, 1000000000),
            (PrecisionMinute, 60000000000), (PrecisionHour, 3600000000000)] →
          Encode { Point.mk "cpu" [] [("value", FieldValue.vInt 5)] none
              with time := some 3599999999999 } ⟨p⟩
            = (pre ++ ' ' :: formatInt (Int.tdiv 3599999999999 d) ++ ['\n'], none))
      ∧ Encode { Point.mk "cpu" [] [("value", FieldValue.vInt 5)] none
            with time := none } ⟨""⟩ = (pre ++ ['\n'], none) :=
  ⟨rfl, by decide,
    encode_timestamp_precision ⟨"cpu", [], [("value", FieldValue.vInt 5)], none⟩
      3599999999999 ("value=5i".data) rfl (by decide)⟩

/-- Counterexample to claim C3 as stated: encoding a point whose single
field has an unsupported value reports the error but leaves the writer
holding `m k=` — the separating text, the field's escaped key and the `=`
are written before `formatValue` is consulted (protocol.go lines 237-243),
so the failing field *is* partially written and the writer holds a
malformed partial line. -/
theorem encode_unsupported_counterexample :
    Encode ⟨"m", [], [("k", .vUnsupported "[]int")], none⟩ ⟨""⟩
      = ("m k=".data, some (.invalidFieldType "[]int"))
    ∧ "k=".data <:+ (Encode ⟨"m", [], [("k", .vUnsupported "[]int")], none⟩ ⟨""⟩).1 := by
  decide

theorem encodeFields_unsupported (k : String) (tname : String)
    (post : List (String × FieldValue)) :
    ∀ (first : Bool) (pre : List (String × FieldValue)) (preStr : List Char),
      encodeFields first pre = .ok preStr →
      encodeFields first (pre ++ (k, .vUnsupported tname) :: post)
        = .error (preStr ++ ((if first && pre.isEmpty then [] else [','])
            ++ (escapeString k.data ++ ['='])), .invalidFieldType tname) := by
  intro first pre
  induction pre generalizing first with
  | nil =>
    intro preStr hpre
    rw [encodeFields] at hpre
    simp only [Except.ok.injEq] at hpre
    subst hpre
    rw [List.nil_append, encodeFields]
    simp [formatValue]
  | cons hd tl ih =>
    intro preStr hpre
    obtain ⟨k1, v1⟩ := hd
    rw [encodeFields] at hpre
    rw [List.cons_append, encodeFields]
    cases hv1 : formatValue v1 with
    | error e =>
      rw [hv1] at hpre
      exact absurd hpre (by simp)
    | ok val1 =>
      rw [hv1] at hpre
      simp only [hv1]
      cases htl : encodeFields false tl with
      | error p =>
        rw [htl] at hpre
        obtain ⟨w2, e2⟩ := p
        exact absurd hpre (by simp)
      | ok tlStr =>
        rw [htl] at hpre
        simp only [Except.ok.injEq] at hpre
        subst hpre
        rw [ih false tlStr htl]
        simp [List.append_assoc]

/-- Claim C3 (amended): for every point containing a field whose value is
unsupported (the preceding fields all encoding successfully), `Encode`
reports the invalid-field-type error, writes nothing of the failing value,
but leaves the writer holding everything written before `formatValue`
failed: the head, the preceding fields, and the failing field's separating
comma (when it is not the first field), escaped key and `=` — a malformed
partial line. -/
theorem encode_unsupported_field {pt : Point} {opt : EncodeOptions}
    {pre post : List (String × FieldValue)} {k tname : String} {preStr : List Char}
    (hfields : pt.fields = pre ++ (k, .vUnsupported tname) :: post)
    (hpre : encodeFields true pre = .ok preStr) :
    Encode pt opt
      = (encodeHead pt ++ (preStr ++ ((if pre.isEmpty then [] else [','])
          ++ (escapeString k.data ++ ['=']))), some (.invalidFieldType tname)) := by
  unfold Encode
  rw [hfields]
  rw [if_neg (by simp)]
  rw [encodeFields_unsupported k tname post true pre preStr hpre]
  simp

/-- Witness for the amended C3: one good field before the unsupported one. -/
theorem encode_unsupported_field_witness :
    (Point.mk "m" [] [("a", FieldValue.vInt 1), ("k", FieldValue.vUnsupported "[]int")] none).fields
      = [("a", FieldValue.vInt 1)] ++ ("k", FieldValue.vUnsupported "[]int") :: []
    ∧ encodeFields true [("a", FieldValue.vInt 1)] = .ok ("a=1i".data)
    ∧ Encode ⟨"m", [], [("a", FieldValue.vInt 1), ("k", FieldValue.vUnsupported "[]int")], none⟩ ⟨""⟩
      = (encodeHead ⟨"m", [], [("a", FieldValue.vInt 1), ("k", FieldValue.vUnsupported "[]int")], none⟩
          ++ ("a=1i".data ++ ((if ([("a", FieldValue.vInt 1)] : List (String × FieldValue)).isEmpty
              then [] else [','])
            ++ (escapeString "k".data ++ ['=']))), some (.invalidFieldType "[]int")) :=
  ⟨rfl, rfl,
    @encode_unsupported_field
      ⟨"m", [], [("a", FieldValue.vInt 1), ("k", FieldValue.vUnsupported "[]int")], none⟩
      ⟨""⟩ [("a", FieldValue.vInt 1)] [] "k" "[]int" ("a=1i".data) rfl rfl⟩

/-- Counterexample to claim C4 as stated: for the point with measurement
`m`, tag `k` whose value is a single backslash, and integer field `f`,
`Encode` succeeds and produces `m,k=\ f=1i\n` — but the backslash is not
escaped by `tagEscapeCodes`, so on the wire it merges with the following
space into the escape sequence `\ `; no decoder honouring the spec's
escaping rules can recover the point, and the spec-modelled decoder fails
on the line, so `decode(encode(point))` does not round-trip. -/
theorem decode_encode_counterexample :
    (Encode ⟨"m", [⟨"k", "\\"⟩], [("f", .vInt 1)], none⟩ ⟨""⟩).2 = none
    ∧ (Encode ⟨"m", [⟨"k", "\\"⟩], [("f", .vInt 1)], none⟩ ⟨""⟩).1
        = ("m,k=\\ f=1i\n").data
    ∧ decodeLine (Encode ⟨"m", [⟨"k", "\\"⟩], [("f", .vInt 1)], none⟩ ⟨""⟩).1 = none := by
  refine ⟨rfl, rfl, ?_⟩
  decide

/-- Single-pass form of the escape tables: every character in the special
set is prefixed with a backslash. -/
def escWith (S : List Char) : List Char → List Char
  | [] => []
  | c :: cs => (if c ∈ S then ['\\', c] else [c]) ++ escWith S cs

theorem replaceChar_append (pat : Char) (rep : List Char) (a b : List Char) :
    replaceChar pat rep (a ++ b) = replaceChar pat rep a ++ replaceChar pat rep b := by
  induction a with
  | nil => rfl
  | cons c cs ih =>
    simp only [List.cons_append, replaceChar, List.append_eq, ih, List.append_assoc]

theorem escapeMeasurement_eq (l : List Char) :
    escapeMeasurement l = escWith [',', ' '] l := by
  induction l with
  | nil => rfl
  | cons c cs ih =>
    show replaceChar ' ' ['\\', ' '] (replaceChar ',' ['\\', ','] (c :: cs))
      = _
    rw [replaceChar]
    rw [replaceChar_append]
    have htail : replaceChar ' ' ['\\', ' '] (replaceChar ',' ['\\', ','] cs)
        = escWith [',', ' '] cs := ih
    rw [htail, escWith]
    by_cases h1 : c = ','
    · subst h1; rfl
    · by_cases h2 : c = ' '
      · subst h2; rfl
      · simp [h1, h2, replaceChar]

theorem escapeTag_eq (l : List Char) :
    escapeTag l = escWith [',', ' ', '='] l := by
  induction l with
  | nil => rfl
  | cons c cs ih =>
    show replaceChar '=' ['\\', '='] (replaceChar ' ' ['\\', ' ']
        (replaceChar ',' ['\\', ','] (c :: cs))) = _
    rw [replaceChar, replaceChar_append, replaceChar_append]
    have htail : replaceChar '=' ['\\', '='] (replaceChar ' ' ['\\', ' ']
        (replaceChar ',' ['\\', ','] cs)) = escWith [',', ' ', '='] cs := ih
    rw [htail, escWith]
    by_cases h1 : c = ','
    · subst h1; rfl
    · by_cases h2 : c = ' '
      · subst h2; rfl
      · by_cases h3 : c = '='
        · subst h3; rfl
        · simp [h1, h2, h3, replaceChar]

theorem escapeString_eq (l : List Char) :
    escapeString l = escWith ['\\', '"'] l := by
  induction l with
  | nil => rfl
  | cons c cs ih =>
    show replaceChar '"' ['\\', '"'] (replaceChar '\\' ['\\', '\\'] (c :: cs)) = _
    rw [replaceChar, replaceChar_append]
    have htail : replaceChar '"' ['\\', '"'] (replaceChar '\\' ['\\', '\\'] cs)
        = escWith ['\\', '"'] cs := ih
    rw [htail, escWith]
    by_cases h1 : c = '\\'
    · subst h1; rfl
    · by_cases h2 : c = '"'
      · subst h2; rfl
      · simp [h1, h2, replaceChar]

theorem scanEsc_escWith (S stops : List Char) (t : List Char) {rest tok rest2 : List Char}
    (hA : ∀ c ∈ t, c ∈ stops → c ∈ S)
    (hB : ∀ c ∈ t, c = '\\' → c ∈ S)
    (h : scanEsc stops rest = some (tok, rest2)) :
    scanEsc stops (escWith S t ++ rest) = some (t ++ tok, rest2) := by
  induction t with
  | nil => simpa using h
  | cons c cs ih =>
    have ih2 := ih (fun c2 hc2 => hA c2 (by simp [hc2])) (fun c2 hc2 => hB c2 (by simp [hc2]))
    rw [escWith]
    by_cases hc : c ∈ S
    · rw [if_pos hc]
      simp only [List.cons_append, List.append_assoc, List.nil_append]
      rw [scanEsc, ih2]
      rfl
    · rw [if_neg hc]
      have hcs : c ≠ '\\' := fun he => hc (hB c (by simp) he)
      have hcstop : c ∉ stops := fun hs => hc (hA c (by simp) hs)
      simp only [List.cons_append, List.nil_append]
      rw [scanEsc_cons_ne hcs, if_neg hcstop, ih2]
      rfl

theorem scanQuoted_escWith (v : List Char) (rest : List Char) :
    scanQuoted (escWith ['\\', '"'] v ++ '"' :: rest) = some (v, rest) := by
  induction v with
  | nil =>
    rw [escWith, List.nil_append, scanQuoted_cons_ne (by decide), if_pos rfl]
  | cons c cs ih =>
    rw [escWith]
    by_cases hc : c ∈ ['\\', '"']
    · rw [if_pos hc]
      simp only [List.cons_append, List.append_assoc, List.nil_append]
      rw [scanQuoted, ih]
      rfl
    · rw [if_neg hc]
      have h1 : c ≠ '\\' := by intro he; subst he; simp at hc
      have h2 : c ≠ '"' := by intro he; subst he; simp at hc
      simp only [List.cons_append, List.nil_append]
      rw [scanQuoted_cons_ne h1, if_neg h2, ih]
      rfl

theorem scanPlain_token {stops : List Char} (t : List Char) {s : Char} (rest : List Char)
    (ht : ∀ c ∈ t, c ∉ stops) (hs : s ∈ stops) :
    scanPlain stops (t ++ s :: rest) = (t, s :: rest) := by
  induction t with
  | nil => rw [List.nil_append, scanPlain, if_pos hs]
  | cons c cs ih =>
    rw [List.cons_append, scanPlain, if_neg (ht c (by simp))]
    rw [ih (fun c2 hc2 => ht c2 (by simp [hc2]))]

theorem digitChar_safe (k : Nat) :
    digitChar k ∉ ([',', ' ', '\n', '"', '-', '\\', '=', 'i', 't', 'f'] : List Char) := by
  rcases k with - | - | - | - | - | - | - | - | - | k
  all_goals first
    | decide
    | (change ('9' : Char) ∉ _; decide)

theorem digitVal_digitChar {k : Nat} (h : k < 10) : digitVal (digitChar k) = some k := by
  interval_cases k <;> rfl

theorem natDigits_forall (P : Char → Prop) (hP : ∀ k, P (digitChar k)) :
    ∀ n, ∀ c ∈ natDigits n, P c := by
  intro n
  induction n using Nat.strong_induction_on with
  | _ n ih =>
    intro c hc
    rw [natDigits_eq] at hc
    by_cases hn : n < 10
    · rw [if_pos hn] at hc
      simp at hc
      subst hc
      exact hP n
    · rw [if_neg hn] at hc
      simp at hc
      rcases hc with hc | hc
      · exact ih (n / 10) (Nat.div_lt_self (by omega) (by omega)) c hc
      · subst hc
        exact hP (n % 10)

theorem natDigits_ne_nil (n : Nat) : natDigits n ≠ [] := by
  rw [natDigits_eq]
  split <;> simp

theorem parseDigitsAux_append (a : Nat) (xs ys : List Char) :
    parseDigitsAux a (xs ++ ys)
      = match parseDigitsAux a xs with
        | some v => parseDigitsAux v ys
        | none => none := by
  induction xs generalizing a with
  | nil => rfl
  | cons c cs ih =>
    simp only [List.cons_append, parseDigitsAux]
    cases hd : digitVal c with
    | none => rfl
    | some d => exact ih (a * 10 + d)

theorem parse_natDigits : ∀ n a, parseDigitsAux a (natDigits n)
    = some (a * 10 ^ (natDigits n).length + n) := by
  intro n
  induction n using Nat.strong_induction_on with
  | _ n ih =>
    intro a
    rw [natDigits_eq]
    by_cases hn : n < 10
    · rw [if_pos hn]
      simp only [parseDigitsAux]
      rw [digitVal_digitChar hn]
      simp [parseDigitsAux]
    · rw [if_neg hn, parseDigitsAux_append]
      have hd : n / 10 < n := Nat.div_lt_self (by omega) (by omega)
      rw [ih (n / 10) hd a]
      simp only [parseDigitsAux]
      rw [digitVal_digitChar (Nat.mod_lt n (by omega))]
      simp only [parseDigitsAux]
      have hlen : (natDigits (n / 10) ++ [digitChar (n % 10)]).length
          = (natDigits (n / 10)).length + 1 := by simp
      rw [hlen]
      congr 1
      have hdm := Nat.div_add_mod n 10
      calc (a * 10 ^ (natDigits (n / 10)).length + n / 10) * 10 + n % 10
          = a * (10 ^ (natDigits (n / 10)).length * 10) + (n / 10 * 10 + n % 10) := by ring
        _ = a * 10 ^ ((natDigits (n / 10)).length + 1) + n := by
            rw [pow_succ]
            have hdm2 : n / 10 * 10 + n % 10 = n := by omega
            rw [hdm2]

theorem parseNat_natDigits (n : Nat) : parseNat (natDigits n) = some n := by
  rw [parseNat, if_neg (natDigits_ne_nil n)]
  have := parse_natDigits n 0
  simpa using this

theorem parseInt_cons_ne {c : Char} {cs : List Char} (hc : c ≠ '-') :
    parseInt (c :: cs) = (parseNat (c :: cs)).map fun m => (m : Int) := by
  rw [parseInt.eq_def]
  simp [hc]

theorem parseInt_formatInt (n : Int) : parseInt (formatInt n) = some n := by
  by_cases hn : n < 0
  · rw [formatInt, if_pos hn, parseInt, parseNat_natDigits]
    show some (-(↑(n.natAbs) : Int)) = some n
    have hv : -(↑(n.natAbs) : Int) = n := by omega
    rw [hv]
  · rw [formatInt, if_neg hn]
    cases h : natDigits n.natAbs with
    | nil => exact absurd h (natDigits_ne_nil n.natAbs)
    | cons c cs =>
      have hcne : c ≠ '-' := by
        have := natDigits_forall (fun c2 => c2 ≠ '-')
          (fun k => by have := digitChar_safe k; simp at this; tauto) n.natAbs c
        exact this (by simp [h])
      rw [parseInt_cons_ne hcne, ← h, parseNat_natDigits]
      show some ((↑(n.natAbs) : Int)) = some n
      have hv : (↑(n.natAbs) : Int) = n := by omega
      rw [hv]

/-- A field value of one of the supported types (not hitting the `default`
branch of `formatValue`). -/
def FieldValue.supported : FieldValue → Bool
  | .vUnsupported _ => false
  | _ => true

theorem scanEsc_stop {stops : List Char} {s : Char} (rest : List Char)
    (hs : s ∈ stops) (hbs : s ≠ '\\') :
    scanEsc stops (s :: rest) = some ([], s :: rest) := by
  rw [scanEsc_cons_ne hbs, if_pos hs]

theorem formatInt_head (n : Int) :
    ∃ c cs, formatInt n = c :: cs
      ∧ c ∉ ([',', ' ', '\n', '"', '\\', '=', 't', 'f'] : List Char) := by
  by_cases hn : n < 0
  · exact ⟨'-', natDigits n.natAbs, by rw [formatInt, if_pos hn], by decide⟩
  · rw [formatInt, if_neg hn]
    cases h : natDigits n.natAbs with
    | nil => exact absurd h (natDigits_ne_nil n.natAbs)
    | cons c cs =>
      refine ⟨c, cs, rfl, ?_⟩
      have hd := natDigits_forall
        (fun c2 => c2 ∉ ([',', ' ', '\n', '"', '-', '\\', '=', 'i', 't', 'f'] : List Char))
        digitChar_safe n.natAbs c (by simp [h])
      intro hmem
      apply hd
      simp at hmem ⊢
      tauto

theorem formatInt_safe (n : Int) :
    ∀ c ∈ formatInt n, c ∉ ([',', ' ', '\n', '"'] : List Char) := by
  intro c hc
  rw [formatInt] at hc
  have hdig : ∀ c2 ∈ natDigits n.natAbs,
      c2 ∉ ([',', ' ', '\n', '"'] : List Char) := by
    intro c2 hc2
    have hd := natDigits_forall
      (fun c3 => c3 ∉ ([',', ' ', '\n', '"', '-', '\\', '=', 'i', 't', 'f'] : List Char))
      digitChar_safe n.natAbs c2 hc2
    intro hmem
    apply hd
    simp at hmem ⊢
    tauto
  by_cases hn : n < 0
  · rw [if_pos hn] at hc
    rcases hc with - | hc
    · decide
    · exact hdig c (by assumption)
  · rw [if_neg hn] at hc
    exact hdig c hc

theorem parseFieldValue_int (n : Int) :
    parseFieldValue (formatInt n ++ ['i']) = some (.vInt n) := by
  obtain ⟨c, cs, hform, hc⟩ := formatInt_head n
  have hne1 : formatInt n ++ ['i'] ≠ "true".data := by
    rw [hform]
    intro h
    injection h with hh1 hh2
    subst hh1
    simp at hc
  have hne2 : formatInt n ++ ['i'] ≠ "false".data := by
    rw [hform]
    intro h
    injection h with hh1 hh2
    subst hh1
    simp at hc
  rw [parseFieldValue, if_neg hne1, if_neg hne2]
  have hrev : (formatInt n ++ ['i']).reverse = 'i' :: (formatInt n).reverse := by
    simp
  rw [hrev]
  show (parseInt (formatInt n).reverse.reverse).map FieldValue.vInt = some (.vInt n)
  rw [List.reverse_reverse, parseInt_formatInt]
  rfl

theorem parseFieldValue_true : parseFieldValue "true".data = some (.vBool true) := rfl

theorem parseFieldValue_false : parseFieldValue "false".data = some (.vBool false) := rfl

theorem parseValue_vInt (n : Int) {s : Char} (rest : List Char)
    (hs : s ∈ ([',', ' ', '\n'] : List Char)) :
    parseValue ((formatInt n ++ ['i']) ++ s :: rest) = some (.vInt n, s :: rest) := by
  obtain ⟨c, cs, hform, hc⟩ := formatInt_head n
  have hscan : scanPlain [',', ' ', '\n'] ((formatInt n ++ ['i']) ++ s :: rest)
      = (formatInt n ++ ['i'], s :: rest) := by
    refine scanPlain_token _ _ ?_ hs
    intro c2 hc2
    rcases List.mem_append.mp hc2 with h2 | h2
    · have h3 := formatInt_safe n c2 h2
      simp at h3 ⊢
      tauto
    · simp at h2
      subst h2
      decide
  have hl : (formatInt n ++ ['i']) ++ s :: rest = c :: (cs ++ ['i'] ++ s :: rest) := by
    rw [hform]
    simp
  rw [hl, parseValue_cons_ne _ (by intro he; subst he; simp at hc), ← hl]
  simp only [hscan, parseFieldValue_int]

theorem parseValue_vBool (b : Bool) {s : Char} (rest : List Char)
    (hs : s ∈ ([',', ' ', '\n'] : List Char)) :
    parseValue ((if b then "true".data else "false".data) ++ s :: rest)
      = some (.vBool b, s :: rest) := by
  cases b
  · have hscan : scanPlain [',', ' ', '\n'] ("false".data ++ s :: rest)
        = ("false".data, s :: rest) := scanPlain_token _ _ (by decide) hs
    have hl : (if false then "true".data else "false".data) ++ s :: rest
        = 'f' :: ("alse".data ++ s :: rest) := rfl
    rw [hl, parseValue_cons_ne _ (by decide)]
    have hl2 : 'f' :: ("alse".data ++ s :: rest) = "false".data ++ s :: rest := rfl
    rw [hl2]
    have hpf : parseFieldValue ['f', 'a', 'l', 's', 'e'] = some (.vBool false) := by decide
    simp only [hscan, hpf]
  · have hscan : scanPlain [',', ' ', '\n'] ("true".data ++ s :: rest)
        = ("true".data, s :: rest) := scanPlain_token _ _ (by decide) hs
    have hl : (if true then "true".data else "false".data) ++ s :: rest
        = 't' :: ("rue".data ++ s :: rest) := rfl
    rw [hl, parseValue_cons_ne _ (by decide)]
    have hl2 : 't' :: ("rue".data ++ s :: rest) = "true".data ++ s :: rest := rfl
    rw [hl2]
    have hpf : parseFieldValue ['t', 'r', 'u', 'e'] = some (.vBool true) := by decide
    simp only [hscan, hpf]

theorem parseValue_vStr (v : String) (rest : List Char) :
    parseValue (('"' :: (escapeString v.data ++ ['"'])) ++ rest)
      = some (.vStr v, rest) := by
  rw [List.cons_append, parseValue_quote]
  have h : scanQuoted ((escapeString v.data ++ ['"']) ++ rest) = some (v.data, rest) := by
    have h2 := scanQuoted_escWith v.data rest
    rw [escapeString_eq, List.append_assoc, List.singleton_append]
    exact h2
  rw [h]

theorem parseValue_formatValue {v : FieldValue} {val : List Char}
    (hfv : formatValue v = .ok val) {s : Char} (rest : List Char)
    (hs : s ∈ ([',', ' ', '\n'] : List Char)) :
    parseValue (val ++ s :: rest) = some (v, s :: rest) := by
  cases v with
  | vInt n =>
    simp only [formatValue, Except.ok.injEq] at hfv
    subst hfv
    exact parseValue_vInt n rest hs
  | vStr str =>
    simp only [formatValue, Except.ok.injEq] at hfv
    subst hfv
    exact parseValue_vStr str (s :: rest)
  | vBool b =>
    simp only [formatValue, Except.ok.injEq] at hfv
    subst hfv
    exact parseValue_vBool b rest hs
  | vUnsupported t =>
    simp [formatValue] at hfv

theorem encodeFields_false_cons (k : String) (v : FieldValue)
    (fs : List (String × FieldValue)) {F : List Char}
    (h : encodeFields false ((k, v) :: fs) = .ok F) :
    ∃ F2, F = ',' :: F2 ∧ encodeFields true ((k, v) :: fs) = .ok F2 := by
  simp only [encodeFields] at h ⊢
  cases hfv : formatValue v with
  | error e =>
    rw [hfv] at h
    exact absurd h (by simp)
  | ok val =>
    rw [hfv] at h
    simp only [hfv]
    cases hrest : encodeFields false fs with
    | error p =>
      rw [hrest] at h
      obtain ⟨w, e⟩ := p
      exact absurd h (by simp)
    | ok written =>
      rw [hrest] at h
      simp only [hrest]
      simp only [Except.ok.injEq] at h
      subst h
      exact ⟨_, by simp, rfl⟩

theorem encodeFields_ok_of_supported :
    ∀ (fields : List (String × FieldValue)),
    (∀ p ∈ fields, p.2.supported = true) →
    ∀ first, ∃ F, encodeFields first fields = .ok F := by
  intro fields
  induction fields with
  | nil => exact fun _ _ => ⟨[], rfl⟩
  | cons p fs ih =>
    intro hall first
    obtain ⟨k, v⟩ := p
    have hsup : v.supported = true := hall (k, v) (by simp)
    obtain ⟨val, hval⟩ : ∃ val, formatValue v = .ok val := by
      cases v with
      | vUnsupported t => simp [FieldValue.supported] at hsup
      | vInt n => exact ⟨_, rfl⟩
      | vStr s2 => exact ⟨_, rfl⟩
      | vBool b => exact ⟨_, rfl⟩
    obtain ⟨Frest, hrest⟩ := ih (fun q hq => hall q (List.mem_cons_of_mem _ hq)) false
    exact ⟨(if first then [] else [',']) ++ (escapeString k.data ++ ['=']) ++ (val ++ Frest),
      by simp only [encodeFields, hval, hrest]⟩

theorem encodeFields_ok_len :
    ∀ (fields : List (String × FieldValue)) (first : Bool) (F : List Char),
    encodeFields first fields = .ok F → fields.length ≤ F.length := by
  intro fields
  induction fields with
  | nil => intro first F h; simp
  | cons p fs ih =>
    intro first F h
    obtain ⟨k, v⟩ := p
    simp only [encodeFields] at h
    cases hfv : formatValue v with
    | error e =>
      rw [hfv] at h
      exact absurd h (by simp)
    | ok val =>
      rw [hfv] at h
      cases hrest : encodeFields false fs with
      | error pr =>
        rw [hrest] at h
        obtain ⟨w, e⟩ := pr
        exact absurd h (by simp)
      | ok written =>
        rw [hrest] at h
        simp only [Except.ok.injEq] at h
        subst h
        have hlen := ih false written hrest
        simp only [List.length_cons, List.length_append]
        omega

theorem encodeFields_cons_ok {first : Bool} {k : String} {v : FieldValue}
    {fs : List (String × FieldValue)} {F : List Char}
    (h : encodeFields first ((k, v) :: fs) = .ok F) :
    ∃ val Frest, formatValue v = .ok val ∧ encodeFields false fs = .ok Frest ∧
      F = (if first then [] else [',']) ++ (escapeString k.data ++ ['=']) ++ (val ++ Frest) := by
  simp only [encodeFields] at h
  cases hfv : formatValue v with
  | error e =>
    rw [hfv] at h
    exact absurd h (by simp)
  | ok val =>
    rw [hfv] at h
    cases hrest : encodeFields false fs with
    | error pr =>
      obtain ⟨w, e⟩ := pr
      rw [hrest] at h
      exact absurd h (by simp)
    | ok Frest =>
      rw [hrest] at h
      simp only [Except.ok.injEq] at h
      exact ⟨val, Frest, rfl, rfl, h.symm⟩

theorem decodeFieldsF_round :
    ∀ (fields : List (String × FieldValue)) (fuel : Nat) (F tail : List Char),
    fields ≠ [] →
    (∀ p ∈ fields, p.2.supported = true) →
    (∀ p ∈ fields, '=' ∉ p.1.data) →
    encodeFields true fields = .ok F →
    fields.length ≤ fuel + 1 →
    (tail.head? = some ' ' ∨ tail.head? = some '\n') →
    decodeFieldsF fuel (F ++ tail) =
      some (fields.map (fun p => (p.1.data, p.2)), tail) := by
  intro fields
  induction fields with
  | nil => intro fuel F tail hne _ _ _ _ _; exact absurd rfl hne
  | cons p fs ih =>
    intro fuel F tail hne hsup hkeys hF hfuel htail
    obtain ⟨k, v⟩ := p
    obtain ⟨val, Frest, hval, hrest, hFm⟩ := encodeFields_cons_ok hF
    have hkmem : '=' ∉ k.data := hkeys (k, v) (by simp)
    have hscanK : ∀ rem : List Char,
        scanEsc ['='] (escWith ['\\', '"'] k.data ++ '=' :: rem)
          = some (k.data, '=' :: rem) := by
      intro rem
      have h0 : scanEsc ['='] ('=' :: rem) = some ([], '=' :: rem) :=
        scanEsc_stop rem (by decide) (by decide)
      have h1 : scanEsc ['='] (escWith ['\\', '"'] k.data ++ '=' :: rem)
          = some (k.data ++ [], '=' :: rem) := by
        refine scanEsc_escWith _ _ _ ?_ ?_ h0
        · intro c hcmem hcs
          simp at hcs
          subst hcs
          exact absurd hcmem hkmem
        · intro c hcmem hcs
          subst hcs
          simp
      simpa using h1
    cases fs with
    | nil =>
      have hFrest : Frest = [] := by
        simp only [encodeFields, Except.ok.injEq] at hrest
        exact hrest.symm
      subst hFrest
      have hF2 : F = escWith ['\\', '"'] k.data ++ '=' :: val := by
        rw [hFm, escapeString_eq]
        simp
      subst hF2
      have htail2 : (∃ t2, tail = ' ' :: t2) ∨ (∃ t2, tail = '\n' :: t2) := by
        cases tail with
        | nil => simp at htail
        | cons a t2 =>
          simp only [List.head?_cons, Option.some.injEq] at htail
          rcases htail with h | h
          · exact Or.inl ⟨t2, by rw [h]⟩
          · exact Or.inr ⟨t2, by rw [h]⟩
      rcases htail2 with ⟨t2, rfl⟩ | ⟨t2, rfl⟩
      · have hpv := parseValue_formatValue hval t2 (show ' ' ∈ [',', ' ', '\n'] by decide)
        rw [List.append_assoc, List.cons_append, decodeFieldsF]
        simp only [hscanK, hpv, List.map_cons, List.map_nil]
        rfl
      · have hpv := parseValue_formatValue hval t2 (show '\n' ∈ [',', ' ', '\n'] by decide)
        rw [List.append_assoc, List.cons_append, decodeFieldsF]
        simp only [hscanK, hpv, List.map_cons, List.map_nil]
        rfl
    | cons p2 fs2 =>
      obtain ⟨k2, v2⟩ := p2
      cases fuel with
      | zero => simp only [List.length_cons] at hfuel; omega
      | succ g =>
        obtain ⟨F2, hF2eq, hF2⟩ := encodeFields_false_cons k2 v2 fs2 hrest
        subst hF2eq
        have hIH := ih g F2 tail (by simp)
          (fun q hq => hsup q (by simp [hq]))
          (fun q hq => hkeys q (by simp [hq])) hF2
          (by simp only [List.length_cons] at hfuel ⊢; omega) htail
        rw [hFm, escapeString_eq]
        have hshape :
            ((if true then ([] : List Char) else [',']) ++ (escWith ['\\', '"'] k.data ++ ['=']) ++ (val ++ ',' :: F2)) ++ tail
              = escWith ['\\', '"'] k.data ++ '=' :: (val ++ ',' :: (F2 ++ tail)) := by
          simp
        rw [hshape, decodeFieldsF]
        have hpv := parseValue_formatValue hval (F2 ++ tail)
          (show ',' ∈ [',', ' ', '\n'] by decide)
        simp only [hscanK, hpv, hIH, List.map_cons]

/-- The tag section of `encodeHead`: per tag a comma, the escaped key, `=`,
and the escaped value. -/
def tagsFlat (tags : List Tag) : List Char :=
  (tags.map fun t => ',' :: (escapeTag t.key.data ++ '=' :: escapeTag t.value.data)).flatten

theorem encodeHead_tagsFlat (pt : Point) :
    encodeHead pt = escapeMeasurement pt.name.data ++ tagsFlat pt.tags ++ [' '] := rfl

theorem scanEsc_tagsFlat (tags : List Tag) (rest : List Char) :
    scanEsc [',', ' '] (tagsFlat tags ++ ' ' :: rest)
      = some ([], tagsFlat tags ++ ' ' :: rest) := by
  cases tags with
  | nil =>
    simp only [tagsFlat, List.map_nil, List.flatten_nil, List.nil_append]
    exact scanEsc_stop rest (by decide) (by decide)
  | cons t ts =>
    simp only [tagsFlat, List.map_cons, List.flatten_cons, List.cons_append]
    exact scanEsc_stop _ (by decide) (by decide)

theorem tagsFlat_len (tags : List Tag) : tags.length ≤ (tagsFlat tags).length := by
  induction tags with
  | nil => simp [tagsFlat]
  | cons t ts ih =>
    simp only [tagsFlat, List.map_cons, List.flatten_cons, List.length_append,
      List.length_cons] at ih ⊢
    omega

theorem tagsFlat_cons (t : Tag) (ts : List Tag) :
    tagsFlat (t :: ts)
      = ',' :: (escapeTag t.key.data ++ '=' :: escapeTag t.value.data) ++ tagsFlat ts := rfl

theorem decodeTagsF_round :
    ∀ (tags : List Tag) (fuel : Nat) (rest : List Char),
    (∀ t ∈ tags, '\\' ∉ t.key.data ∧ '\\' ∉ t.value.data) →
    tags.length ≤ fuel →
    decodeTagsF fuel (tagsFlat tags ++ ' ' :: rest) =
      some (tags.map fun t => (t.key.data, t.value.data), ' ' :: rest) := by
  intro tags
  induction tags with
  | nil =>
    intro fuel rest _ _
    simp only [tagsFlat, List.map_nil, List.flatten_nil, List.nil_append]
    cases fuel with
    | zero => rfl
    | succ g => rfl
  | cons t ts ih =>
    intro fuel rest hbs hfuel
    cases fuel with
    | zero => simp only [List.length_cons] at hfuel; omega
    | succ g =>
      obtain ⟨hk, hv⟩ := hbs t (by simp)
      have hscanK : scanEsc ['=']
          (escWith [',', ' ', '='] t.key.data
            ++ '=' :: (escWith [',', ' ', '='] t.value.data ++ (tagsFlat ts ++ ' ' :: rest)))
          = some (t.key.data,
              '=' :: (escWith [',', ' ', '='] t.value.data ++ (tagsFlat ts ++ ' ' :: rest))) := by
        have h0 := scanEsc_stop (escWith [',', ' ', '='] t.value.data ++ (tagsFlat ts ++ ' ' :: rest))
          (show '=' ∈ (['='] : List Char) by decide) (by decide)
        have h1 : scanEsc ['=']
            (escWith [',', ' ', '='] t.key.data
              ++ '=' :: (escWith [',', ' ', '='] t.value.data ++ (tagsFlat ts ++ ' ' :: rest)))
            = some (t.key.data ++ [],
                '=' :: (escWith [',', ' ', '='] t.value.data ++ (tagsFlat ts ++ ' ' :: rest))) := by
          refine scanEsc_escWith _ _ _ ?_ ?_ h0
          · intro c hcmem hcs
            simp at hcs
            subst hcs
            decide
          · intro c hcmem hcs
            subst hcs
            exact absurd hcmem hk
        simpa using h1
      have hscanV : scanEsc [',', ' ']
          (escWith [',', ' ', '='] t.value.data ++ (tagsFlat ts ++ ' ' :: rest))
          = some (t.value.data, tagsFlat ts ++ ' ' :: rest) := by
        have h0 := scanEsc_tagsFlat ts rest
        have h1 : scanEsc [',', ' ']
            (escWith [',', ' ', '='] t.value.data ++ (tagsFlat ts ++ ' ' :: rest))
            = some (t.value.data ++ [], tagsFlat ts ++ ' ' :: rest) := by
          refine scanEsc_escWith _ _ _ ?_ ?_ h0
          · intro c hcmem hcs
            simp at hcs ⊢
            tauto
          · intro c hcmem hcs
            subst hcs
            exact absurd hcmem hv
        simpa using h1
      have hIH := ih g rest (fun q hq => hbs q (by simp [hq]))
        (by simp only [List.length_cons] at hfuel; omega)
      have hshape : tagsFlat (t :: ts) ++ ' ' :: rest
          = ',' :: (escWith [',', ' ', '='] t.key.data
              ++ '=' :: (escWith [',', ' ', '='] t.value.data ++ (tagsFlat ts ++ ' ' :: rest))) := by
        rw [tagsFlat_cons, ← escapeTag_eq, ← escapeTag_eq]
        simp
      rw [hshape, decodeTagsF]
      simp only [hscanK, hscanV, hIH, List.map_cons]

theorem decodeTail_empty_time : decodeTail ['\n'] = some none := rfl

theorem decodeTail_formatInt (ts : Int) :
    decodeTail (' ' :: (formatInt ts ++ ['\n'])) = some (some ts) := by
  have hscan : scanPlain ['\n'] (formatInt ts ++ ['\n']) = (formatInt ts, ['\n']) := by
    refine scanPlain_token _ [] ?_ (by decide)
    intro c hc
    have h2 := formatInt_safe ts c hc
    simp at h2 ⊢
    tauto
  simp [decodeTail, hscan, parseInt_formatInt]

theorem decodeLine_parts (name : String) (tags : List Tag)
    (fields : List (String × FieldValue)) (F tail : List Char) (tval : Option Int)
    (h1 : fields ≠ [])
    (h2 : ∀ p ∈ fields, p.2.supported = true)
    (h3 : ∀ p ∈ fields, '=' ∉ p.1.data)
    (h4 : '\\' ∉ name.data)
    (h5 : ∀ t ∈ tags, '\\' ∉ t.key.data ∧ '\\' ∉ t.value.data)
    (hF : encodeFields true fields = .ok F)
    (htail : tail.head? = some ' ' ∨ tail.head? = some '\n')
    (htl : decodeTail tail = some tval) :
    decodeLine (escWith [',', ' '] name.data ++ (tagsFlat tags ++ ' ' :: (F ++ tail)))
      = some ⟨name.data,
              tags.map (fun t => (t.key.data, t.value.data)),
              fields.map (fun p => (p.1.data, p.2)),
              tval⟩ := by
  have hm : scanEsc [',', ' ']
      (escWith [',', ' '] name.data ++ (tagsFlat tags ++ ' ' :: (F ++ tail)))
      = some (name.data, tagsFlat tags ++ ' ' :: (F ++ tail)) := by
    have h0 := scanEsc_tagsFlat tags (F ++ tail)
    have hstep : scanEsc [',', ' ']
        (escWith [',', ' '] name.data ++ (tagsFlat tags ++ ' ' :: (F ++ tail)))
        = some (name.data ++ [], tagsFlat tags ++ ' ' :: (F ++ tail)) := by
      refine scanEsc_escWith _ _ _ ?_ ?_ h0
      · intro c _ hcs
        exact hcs
      · intro c hcmem hcs
        subst hcs
        exact absurd hcmem h4
    simpa using hstep
  have hr1 : tags.length ≤ (tagsFlat tags ++ ' ' :: (F ++ tail)).length := by
    have := tagsFlat_len tags
    simp only [List.length_append, List.length_cons]
    omega
  have hdectags : decodeTags (tagsFlat tags ++ ' ' :: (F ++ tail))
      = some (tags.map fun t => (t.key.data, t.value.data), ' ' :: (F ++ tail)) := by
    rw [decodeTags]
    exact decodeTagsF_round tags _ (F ++ tail) h5 hr1
  have hflen : fields.length ≤ (F ++ tail).length + 1 := by
    have := encodeFields_ok_len fields true F hF
    simp only [List.length_append]
    omega
  have hdecfields : decodeFields (F ++ tail)
      = some (fields.map (fun p => (p.1.data, p.2)), tail) := by
    rw [decodeFields]
    exact decodeFieldsF_round fields _ F tail h1 h2 h3 hF hflen htail
  rw [decodeLine]
  simp only [hm, hdectags, hdecfields, htl]

/-- Claim C4 (amended): for every Point with at least one field, all field
values of supported types, no `=` in field keys, and no backslash in the
measurement name or in tag keys/values, decoding the line produced by
`Encode` recovers the measurement, the tags in order, the fields in order,
and the timestamp truncated to the declared precision (and `Encode` reports
no error).  The backslash restriction is necessary: `Encode`'s escape tables
leave a literal backslash in names and tags unescaped, which the
counterexample shows breaks the round trip. -/
theorem decode_encode_roundtrip (pt : Point) (opt : EncodeOptions)
    (h1 : pt.fields ≠ [])
    (h2 : ∀ p ∈ pt.fields, p.2.supported = true)
    (h3 : ∀ p ∈ pt.fields, '=' ∉ p.1.data)
    (h4 : '\\' ∉ pt.name.data)
    (h5 : ∀ t ∈ pt.tags, '\\' ∉ t.key.data ∧ '\\' ∉ t.value.data) :
    (Encode pt opt).2 = none ∧
    decodeLine (Encode pt opt).1 =
      some ⟨pt.name.data,
            pt.tags.map (fun t => (t.key.data, t.value.data)),
            pt.fields.map (fun p => (p.1.data, p.2)),
            pt.time.map (fun t => Int.tdiv t (precisionFactor opt.precision))⟩ := by
  obtain ⟨F, hF⟩ := encodeFields_ok_of_supported pt.fields h2 true
  have hshape := encode_ok_shape pt opt F hF h1
  have hline : (Encode pt opt).1
      = encodeHead pt ++ F
        ++ (match pt.time with
            | none => []
            | some t => ' ' :: formatInt (Int.tdiv t (precisionFactor opt.precision)))
        ++ ['\n'] := by rw [hshape]
  have herr : (Encode pt opt).2 = none := by rw [hshape]
  refine ⟨herr, ?_⟩
  cases htime : pt.time with
  | none =>
    rw [htime] at hline
    have hline2 : (Encode pt opt).1
        = escWith [',', ' '] pt.name.data
          ++ (tagsFlat pt.tags ++ ' ' :: (F ++ ['\n'])) := by
      rw [hline, encodeHead_tagsFlat, escapeMeasurement_eq]
      simp
    rw [hline2]
    have hres := decodeLine_parts pt.name pt.tags pt.fields F ['\n'] none
      h1 h2 h3 h4 h5 hF (Or.inr rfl) decodeTail_empty_time
    simpa using hres
  | some t0 =>
    rw [htime] at hline
    have hline2 : (Encode pt opt).1
        = escWith [',', ' '] pt.name.data
          ++ (tagsFlat pt.tags
            ++ ' ' :: (F ++ (' ' :: (formatInt (Int.tdiv t0 (precisionFactor opt.precision))
                ++ ['\n'])))) := by
      rw [hline, encodeHead_tagsFlat, escapeMeasurement_eq]
      simp
    rw [hline2]
    have hres := decodeLine_parts pt.name pt.tags pt.fields F
      (' ' :: (formatInt (Int.tdiv t0 (precisionFactor opt.precision)) ++ ['\n']))
      (some (Int.tdiv t0 (precisionFactor opt.precision)))
      h1 h2 h3 h4 h5 hF (Or.inl rfl) (decodeTail_formatInt _)
    simpa using hres

theorem decode_encode_roundtrip_witness :
    (Point.mk "m" [⟨"k", "v w"⟩]
        [("f", .vInt 5), ("s", .vStr "a b"), ("b", .vBool true)] (some 1500)).fields ≠ []
    ∧ (∀ p ∈ (Point.mk "m" [⟨"k", "v w"⟩]
        [("f", .vInt 5), ("s", .vStr "a b"), ("b", .vBool true)] (some 1500)).fields,
        p.2.supported = true)
    ∧ (∀ p ∈ (Point.mk "m" [⟨"k", "v w"⟩]
        [("f", .vInt 5), ("s", .vStr "a b"), ("b", .vBool true)] (some 1500)).fields,
        '=' ∉ p.1.data)
    ∧ '\\' ∉ (Point.mk "m" [⟨"k", "v w"⟩]
        [("f", .vInt 5), ("s", .vStr "a b"), ("b", .vBool true)] (some 1500)).name.data
    ∧ (∀ t ∈ (Point.mk "m" [⟨"k", "v w"⟩]
        [("f", .vInt 5), ("s", .vStr "a b"), ("b", .vBool true)] (some 1500)).tags,
        '\\' ∉ t.key.data ∧ '\\' ∉ t.value.data)
    ∧ ((Encode (Point.mk "m" [⟨"k", "v w"⟩]
          [("f", .vInt 5), ("s", .vStr "a b"), ("b", .vBool true)] (some 1500)) ⟨"u"⟩).2 = none
      ∧ decodeLine (Encode (Point.mk "m" [⟨"k", "v w"⟩]
          [("f", .vInt 5), ("s", .vStr "a b"), ("b", .vBool true)] (some 1500)) ⟨"u"⟩).1 =
        some ⟨(Point.mk "m" [⟨"k", "v w"⟩]
                [("f", .vInt 5), ("s", .vStr "a b"), ("b", .vBool true)] (some 1500)).name.data,
              (Point.mk "m" [⟨"k", "v w"⟩]
                [("f", .vInt 5), ("s", .vStr "a b"), ("b", .vBool true)] (some 1500)).tags.map
                (fun t => (t.key.data, t.value.data)),
              (Point.mk "m" [⟨"k", "v w"⟩]
                [("f", .vInt 5), ("s", .vStr "a b"), ("b", .vBool true)] (some 1500)).fields.map
                (fun p => (p.1.data, p.2)),
              (Point.mk "m" [⟨"k", "v w"⟩]
                [("f", .vInt 5), ("s", .vStr "a b"), ("b", .vBool true)] (some 1500)).time.map
                (fun t => Int.tdiv t (precisionFactor (EncodeOptions.mk "u").precision))⟩) :=
  ⟨by decide, by decide, by decide, by decide, by decide,
   decode_encode_roundtrip
     (Point.mk "m" [⟨"k", "v w"⟩]
       [("f", .vInt 5), ("s", .vStr "a b"), ("b", .vBool true)] (some 1500)) ⟨"u"⟩
     (by decide) (by decide) (by decide) (by decide) (by decide)⟩
